import Mathlib

/-!
Verification of the epoch-bounded, memory-accounted LRU cache
(`src/stream/src/cache/managed_lru.rs`).

The cache proper (`ManagedLruCache`, `MutGuard`, the usage reporter) is
embedded directly from the Rust source.  The underlying recency-ordered
entry store (the `lru` crate fork providing `pop_lru_by_epoch`,
`update_epoch`, `current_epoch`) is a dependency whose source is not part
of this repository; it is modelled from the specification of the Entry
Store, with the boundary semantics of `pop_lru_by_epoch` fixed by the
cache's own doc comments ("The entry with epoch less than water should be
evicted", "Evict epochs lower than the watermark", and
`evict_except_cur_epoch`: "except those entry which touched in this
epoch"): the least-recently-used entry is popped only while its stamped
epoch is strictly below the threshold.

Machine integers: `usize` is embedded as `Nat` together with explicit
saturation at `USIZE_MAX`; `Nat` subtraction is already the saturating
subtraction.  The `usize as i64` cast used when pushing a gauge is
embedded as a two's-complement wrap.
-/

namespace ManagedLru

/-- Maximum value of the target's 64-bit `usize`. -/
def USIZE_MAX : Nat := 2 ^ 64 - 1

/-- Rust `usize::saturating_add`: `Nat` addition capped at `USIZE_MAX`.
(`usize::saturating_sub` is plain truncated `Nat` subtraction.) -/
def satAdd (a b : Nat) : Nat := min (a + b) USIZE_MAX

/-- Rust's `usize as i64` cast: two's-complement wrap of the low 64 bits. -/
def usizeToI64 (n : Nat) : Int :=
  if n % 2 ^ 64 < 2 ^ 63 then ((n % 2 ^ 64 : Nat) : Int)
  else ((n % 2 ^ 64 : Nat) : Int) - 2 ^ 64

/-- Source constant `REPORT_SIZE_EVERY_N_KB_CHANGE: usize = 4096`. -/
def REPORT_SIZE_EVERY_N_KB_CHANGE : Nat := 4096

/-- The byte threshold `REPORT_SIZE_EVERY_N_KB_CHANGE << 10` used by
`report_memory_usage`. -/
def reportThresholdBytes : Nat := REPORT_SIZE_EVERY_N_KB_CHANGE <<< 10

/-- Modelled from the spec: `Epoch::physical_time` of `risingwave_common`
(not part of the sources) translates an epoch to an approximate physical
time by discarding the low 16 sequence bits. -/
def physicalTime (e : Nat) : Nat := e >>> 16

/-- Modelled from the spec: the recency-ordered entry store (the `lru`
crate fork used as `inner`; its source is not part of this repository).
A store is a list of `(key, value, stamped_epoch)` entries kept in
recency order with the least-recently-used entry FIRST and the
most-recently-used entry last, an optional hard capacity (`none` for the
unbounded constructors), and the local current epoch stamped onto
inserted/promoted entries (`update_epoch` / `current_epoch`). -/
structure LruCache (K V : Type) where
  entries : List (K × V × Nat)
  capacity : Option Nat
  cur_epoch : Nat
deriving Repr

variable {K V : Type} [DecidableEq K]

/-- Look up the value stored for key `k` (keys are unique in a store). -/
def findVal (k : K) : List (K × V × Nat) → Option V
  | [] => none
  | (k', v, _) :: rest => if k' = k then some v else findVal k rest

/-- Remove the entry of key `k` (all entries with that key). -/
def removeKey (k : K) : List (K × V × Nat) → List (K × V × Nat)
  | [] => []
  | (k', v, e) :: rest =>
    if k' = k then removeKey k rest else (k', v, e) :: removeKey k rest

/-- Replace the value stored for key `k` in place, keeping its position
and stamped epoch (the store's `peek_mut` mutation path). -/
def setValInPlace (k : K) (v : V) : List (K × V × Nat) → List (K × V × Nat)
  | [] => []
  | (k', v', e) :: rest =>
    if k' = k then (k', v, e) :: rest else (k', v', e) :: setValInPlace k v rest

namespace LruCache

/-- Modelled from the spec: insert/replace at the most-recent end,
stamping the local current epoch; returns the replaced value. -/
def put (k : K) (v : V) (c : LruCache K V) : Option V × LruCache K V :=
  (findVal k c.entries,
   { c with entries := removeKey k c.entries ++ [(k, v, c.cur_epoch)] })

/-- Modelled from the spec: like `put`, but when the key is absent and
the store is at a hard capacity, the single least-recently-used entry is
evicted regardless of epoch and returned. -/
def push (k : K) (v : V) (c : LruCache K V) : Option (K × V) × LruCache K V :=
  match findVal k c.entries with
  | some old =>
    (some (k, old),
     { c with entries := removeKey k c.entries ++ [(k, v, c.cur_epoch)] })
  | none =>
    match c.capacity with
    | some cap =>
      if cap ≤ c.entries.length then
        match c.entries with
        | (k0, v0, _) :: rest =>
          (some (k0, v0), { c with entries := rest ++ [(k, v, c.cur_epoch)] })
        | [] => (none, { c with entries := [(k, v, c.cur_epoch)] })
      else (none, { c with entries := c.entries ++ [(k, v, c.cur_epoch)] })
    | none => (none, { c with entries := c.entries ++ [(k, v, c.cur_epoch)] })

/-- Modelled from the spec: read-only lookup that promotes recency and
re-stamps the entry with the local current epoch. -/
def get (k : K) (c : LruCache K V) : Option V × LruCache K V :=
  match findVal k c.entries with
  | some v =>
    (some v, { c with entries := removeKey k c.entries ++ [(k, v, c.cur_epoch)] })
  | none => (none, c)

/-- Modelled from the spec: read-only lookup, no recency promotion. -/
def peek (k : K) (c : LruCache K V) : Option V := findVal k c.entries

/-- Modelled from the spec: pop the least-recently-used entry only if its
stamped epoch is strictly below the given threshold ("the entry with
epoch less than water should be evicted"). -/
def popLruByEpoch (threshold : Nat) (c : LruCache K V) :
    Option ((K × V × Nat) × LruCache K V) :=
  match c.entries with
  | [] => none
  | (k, v, e) :: rest =>
    if e < threshold then some ((k, v, e), { c with entries := rest }) else none

def contains (k : K) (c : LruCache K V) : Bool := (findVal k c.entries).isSome

def len (c : LruCache K V) : Nat := c.entries.length

def clear (c : LruCache K V) : LruCache K V := { c with entries := [] }

def updateEpoch (e : Nat) (c : LruCache K V) : LruCache K V := { c with cur_epoch := e }

end LruCache

/-- The managed cache of `managed_lru.rs`: the entry store, the shared
watermark (embedded as the current value of the `AtomicU64` cell, written
by the external memory manager), the running heap size of keys/values,
the two gauges, and the last reported size. -/
structure ManagedLruCache (K V : Type) where
  inner : LruCache K V
  watermark_epoch : Nat
  kv_heap_size : Nat
  memory_usage_metrics : Int
  lru_evicted_watermark_time_ms : Int
  last_reported_size_bytes : Nat
deriving Repr

/-- Sum of `estimated_size(key) + estimated_size(value)` over a list of
entries (the quantity invariant I1 tracks). -/
def sumEntries (szK : K → Nat) (szV : V → Nat) (l : List (K × V × Nat)) : Nat :=
  (l.map fun x => szK x.1 + szV x.2.1).sum

namespace ManagedLruCache

variable (szK : K → Nat) (szV : V → Nat)

/-- Constructor `new_inner` through `new_unbounded`: empty unbounded
store, zero running size, gauge explicitly set to `0`. -/
def newUnbounded (watermark : Nat) : ManagedLruCache K V :=
  { inner := { entries := [], capacity := none, cur_epoch := 0 },
    watermark_epoch := watermark, kv_heap_size := 0,
    memory_usage_metrics := 0, lru_evicted_watermark_time_ms := 0,
    last_reported_size_bytes := 0 }

/-- Embeds `fn report_memory_usage(&mut self) -> bool`: push the running size to
the gauge iff its absolute difference from the last reported size
strictly exceeds `REPORT_SIZE_EVERY_N_KB_CHANGE << 10`. -/
def reportMemoryUsage (c : ManagedLruCache K V) : ManagedLruCache K V × Bool :=
  if reportThresholdBytes < Nat.dist c.kv_heap_size c.last_reported_size_bytes then
    ({ c with memory_usage_metrics := usizeToI64 c.kv_heap_size,
              last_reported_size_bytes := c.kv_heap_size }, true)
  else (c, false)

/-- Embeds `fn kv_heap_size_inc`: `saturating_add` then throttled report. -/
def kvHeapSizeInc (size : Nat) (c : ManagedLruCache K V) : ManagedLruCache K V :=
  (reportMemoryUsage { c with kv_heap_size := satAdd c.kv_heap_size size }).1

/-- Embeds `fn kv_heap_size_dec`: `saturating_sub` then throttled report. -/
def kvHeapSizeDec (size : Nat) (c : ManagedLruCache K V) : ManagedLruCache K V :=
  (reportMemoryUsage { c with kv_heap_size := c.kv_heap_size - size }).1

/-- Embeds `fn report_evicted_watermark_time`: record the threshold's physical
time into the evicted-watermark gauge. -/
def reportEvictedWatermarkTime (epoch : Nat) (c : ManagedLruCache K V) :
    ManagedLruCache K V :=
  { c with lru_evicted_watermark_time_ms := usizeToI64 (physicalTime epoch) }

/-- Embeds `fn put`: charge the new key/value, insert into the store, and refund
the new key's size plus the replaced value's size when a value was
replaced. -/
def put (k : K) (v : V) (c : ManagedLruCache K V) :
    Option V × ManagedLruCache K V :=
  let key_size := szK k
  let c1 := kvHeapSizeInc (key_size + szV v) c
  let r := c1.inner.put k v
  let c2 := { c1 with inner := r.2 }
  match r.1 with
  | some old_val => (some old_val, kvHeapSizeDec (key_size + szV old_val) c2)
  | none => (none, c2)

/-- Embeds `fn push`: charge the new key/value, push into the store, and refund
the returned old entry's key/value sizes when one comes back. -/
def push (k : K) (v : V) (c : ManagedLruCache K V) :
    Option (K × V) × ManagedLruCache K V :=
  let c1 := kvHeapSizeInc (szK k + szV v) c
  let r := c1.inner.push k v
  let c2 := { c1 with inner := r.2 }
  match r.1 with
  | some (old_key, old_val) =>
    (some (old_key, old_val), kvHeapSizeDec (szK old_key + szV old_val) c2)
  | none => (none, c2)

/-- Embeds `fn get`: delegate to the store's promoting lookup. -/
def get (k : K) (c : ManagedLruCache K V) : Option V × ManagedLruCache K V :=
  let r := c.inner.get k
  (r.1, { c with inner := r.2 })

/-- Embeds `fn peek`: delegate to the store's non-promoting lookup. -/
def peek (k : K) (c : ManagedLruCache K V) : Option V := c.inner.peek k

/-- Embeds `impl Drop for MutGuard`: on release, the running total is
`saturating_sub`-ed by the value's acquisition-time cost and
`saturating_add`-ed by its release-time cost, then the throttled report
runs (the guard's `report_memory_usage` has the same body as the
cache's). -/
def guardRelease (orig newSize : Nat) (c : ManagedLruCache K V) :
    ManagedLruCache K V :=
  (reportMemoryUsage { c with kv_heap_size := satAdd (c.kv_heap_size - orig) newSize }).1

/-- Operation `get_mut(k)` followed by mutating the guarded value with `f` and
dropping the guard: the store promotes and re-stamps the entry,
`MutGuard::new` records the value's cost at acquisition, the mutation
happens in place, and the guard's `Drop` reconciles the running size. -/
def getMutApply (k : K) (f : V → V) (c : ManagedLruCache K V) :
    ManagedLruCache K V :=
  match findVal k c.inner.entries with
  | none => c
  | some v =>
    guardRelease (szV v) (szV (f v))
      { c with inner :=
          { c.inner with
            entries := removeKey k c.inner.entries ++ [(k, f v, c.inner.cur_epoch)] } }

/-- Operation `peek_mut(k)` followed by mutating the guarded value with `f` and
dropping the guard: like `getMutApply` but without recency promotion or
re-stamping. -/
def peekMutApply (k : K) (f : V → V) (c : ManagedLruCache K V) :
    ManagedLruCache K V :=
  match findVal k c.inner.entries with
  | none => c
  | some v =>
    guardRelease (szV v) (szV (f v))
      { c with inner :=
          { c.inner with entries := setValInPlace k (f v) c.inner.entries } }

/-- The eviction loop of `fn evict_by_epoch`: repeatedly
`pop_lru_by_epoch` and refund each popped entry's key/value sizes.  The
list argument is the store's entry list, recursed on structurally; the
cache argument is kept in lockstep (`l = c.inner.entries`). -/
def evictRec (threshold : Nat) :
    List (K × V × Nat) → ManagedLruCache K V → ManagedLruCache K V
  | [], c => c
  | (k, v, _e) :: rest, c =>
    if _e < threshold then
      evictRec threshold rest
        (kvHeapSizeDec (szK k + szV v)
          { c with inner := { c.inner with entries := rest } })
    else c

/-- Embeds `fn evict_by_epoch`: run the eviction loop, then record the threshold
into the evicted-watermark gauge. -/
def evictByEpoch (threshold : Nat) (c : ManagedLruCache K V) : ManagedLruCache K V :=
  reportEvictedWatermarkTime threshold (evictRec szK szV threshold c.inner.entries c)

/-- Embeds `fn evict`: evict with the loaded watermark (`load_cur_epoch` reads
the shared watermark cell). -/
def evict (c : ManagedLruCache K V) : ManagedLruCache K V :=
  evictByEpoch szK szV c.watermark_epoch c

/-- Embeds `fn evict_except_cur_epoch`: evict with threshold
`min(load_cur_epoch(), inner.current_epoch())`. -/
def evictExceptCurEpoch (c : ManagedLruCache K V) : ManagedLruCache K V :=
  evictByEpoch szK szV (min c.watermark_epoch c.inner.cur_epoch) c

/-- Embeds `fn update_epoch`: delegate to the store. -/
def updateEpoch (e : Nat) (c : ManagedLruCache K V) : ManagedLruCache K V :=
  { c with inner := c.inner.updateEpoch e }

/-- The external memory manager advancing the shared watermark cell. -/
def setWatermark (w : Nat) (c : ManagedLruCache K V) : ManagedLruCache K V :=
  { c with watermark_epoch := w }

/-- Embeds `fn contains`. -/
def contains (k : K) (c : ManagedLruCache K V) : Bool := c.inner.contains k

/-- Embeds `fn len`. -/
def len (c : ManagedLruCache K V) : Nat := c.inner.len

/-- Embeds `fn is_empty`: `self.inner.len() == 0`. -/
def isEmpty (c : ManagedLruCache K V) : Bool := c.inner.len == 0

/-- Embeds `fn clear`: `self.inner.clear()` — and nothing else. -/
def clear (c : ManagedLruCache K V) : ManagedLruCache K V :=
  { c with inner := c.inner.clear }

/-- Embeds `impl Drop for ManagedLruCache`: set the memory-usage gauge to 0. -/
def dropCache (c : ManagedLruCache K V) : ManagedLruCache K V :=
  { c with memory_usage_metrics := 0 }

/-- The running size the invariant I1 speaks about: the exact sum of the
estimated sizes of all resident entries. -/
def sumSize (c : ManagedLruCache K V) : Nat := sumEntries szK szV c.inner.entries

end ManagedLruCache

/-- The keys of an entry list, in order. -/
def keysOf (l : List (K × V × Nat)) : List K := l.map Prod.fst

/-- One public operation on the cache (the guarded-mutation operations
carry the mutation applied between acquisition and release of the
guard; `setWatermark` is the external memory manager's advancement of
the shared watermark cell). -/
inductive Op (K V : Type) where
  | put (k : K) (v : V)
  | push (k : K) (v : V)
  | get (k : K)
  | peek (k : K)
  | getMut (k : K) (f : V → V)
  | peekMut (k : K) (f : V → V)
  | evict
  | evictExceptCurEpoch
  | clear
  | updateEpoch (e : Nat)
  | setWatermark (w : Nat)

/-- The state transition of one public operation. -/
def step (szK : K → Nat) (szV : V → Nat) (c : ManagedLruCache K V) :
    Op K V → ManagedLruCache K V
  | .put k v => (ManagedLruCache.put szK szV k v c).2
  | .push k v => (ManagedLruCache.push szK szV k v c).2
  | .get k => (ManagedLruCache.get k c).2
  | .peek _ => c
  | .getMut k f => ManagedLruCache.getMutApply szV k f c
  | .peekMut k f => ManagedLruCache.peekMutApply szV k f c
  | .evict => ManagedLruCache.evict szK szV c
  | .evictExceptCurEpoch => ManagedLruCache.evictExceptCurEpoch szK szV c
  | .clear => ManagedLruCache.clear c
  | .updateEpoch e => ManagedLruCache.updateEpoch e c
  | .setWatermark w => ManagedLruCache.setWatermark w c

/-- Run a sequence of public operations. -/
def run (szK : K → Nat) (szV : V → Nat) (c : ManagedLruCache K V) :
    List (Op K V) → ManagedLruCache K V
  | [] => c
  | op :: ops => run szK szV (step szK szV c op) ops

/-- Well-formedness: keys are unique in the store, and the running size
equals the exact sum of estimated sizes of the resident entries
(invariants I1 and I3). -/
def WF (szK : K → Nat) (szV : V → Nat) (c : ManagedLruCache K V) : Prop :=
  (keysOf c.inner.entries).Nodup ∧
    c.kv_heap_size = ManagedLruCache.sumSize szK szV c

/-- No-saturation side condition of one operation: the increments it
performs keep the running total within `usize` range (this is the regime
in which saturating arithmetic is exact). -/
def opOk (szK : K → Nat) (szV : V → Nat) (c : ManagedLruCache K V) :
    Op K V → Prop
  | .put k v => c.kv_heap_size + (szK k + szV v) ≤ USIZE_MAX
  | .push k v => c.kv_heap_size + (szK k + szV v) ≤ USIZE_MAX
  | .getMut k f =>
    (findVal k c.inner.entries).elim True
      (fun v => c.kv_heap_size - szV v + szV (f v) ≤ USIZE_MAX)
  | .peekMut k f =>
    (findVal k c.inner.entries).elim True
      (fun v => c.kv_heap_size - szV v + szV (f v) ≤ USIZE_MAX)
  | _ => True

/-- All operations of a sequence satisfy their no-saturation side
condition at the state they run in. -/
def stepsOk (szK : K → Nat) (szV : V → Nat) :
    ManagedLruCache K V → List (Op K V) → Prop
  | _, [] => True
  | c, op :: ops => opOk szK szV c op ∧ stepsOk szK szV (step szK szV c op) ops

/-- The recency order is epoch-sorted: stamped epochs are non-decreasing
from the LRU end to the MRU end.  This is the invariant the spec appeals
to for eviction ("since promotion re-stamps to the current local epoch,
all entries warmer than the watermark are necessarily nearer the hot
end"); it is maintained whenever `update_epoch` is called with
non-decreasing epochs. -/
def EpochSorted (c : ManagedLruCache K V) : Prop :=
  c.inner.entries.Pairwise (fun a b => a.2.2 ≤ b.2.2)

/-- Predicate: `op` neither re-inserts key `k` nor mutates its value: it is not a
`put`/`push` of `k` and not a guarded mutation of `k`. -/
def avoidsKey (k : K) : Op K V → Prop
  | .put kk _ => kk ≠ k
  | .push kk _ => kk ≠ k
  | .getMut kk _ => kk ≠ k
  | .peekMut kk _ => kk ≠ k
  | _ => True

/-- One bare accounting change on the running size: `kv_heap_size_inc`
(`true`) or `kv_heap_size_dec` (`false`) by the given size. -/
def applyChange (c : ManagedLruCache K V) (d : Bool × Nat) : ManagedLruCache K V :=
  if d.1 then ManagedLruCache.kvHeapSizeInc d.2 c else ManagedLruCache.kvHeapSizeDec d.2 c

/-- A sequence of bare accounting changes. -/
def applyChanges (c : ManagedLruCache K V) : List (Bool × Nat) → ManagedLruCache K V
  | [] => c
  | d :: ds => applyChanges (applyChange c d) ds

/-- Every change of the list leaves the running size within the report
threshold of the last reported size. -/
def smallChanges (c : ManagedLruCache K V) : List (Bool × Nat) → Prop
  | [] => True
  | d :: ds =>
    Nat.dist (if d.1 then satAdd c.kv_heap_size d.2 else c.kv_heap_size - d.2)
        c.last_reported_size_bytes ≤ reportThresholdBytes ∧
      smallChanges (applyChange c d) ds

section Lemmas

variable {K V : Type} [DecidableEq K] {u : K → Nat} {z : V → Nat}

theorem keysOf_cons (k : K) (v : V) (e : Nat) (l : List (K × V × Nat)) :
    keysOf ((k, v, e) :: l) = k :: keysOf l := rfl

theorem keysOf_append (l₁ l₂ : List (K × V × Nat)) :
    keysOf (l₁ ++ l₂) = keysOf l₁ ++ keysOf l₂ := List.map_append _ _ _

theorem findVal_eq_none_iff {k : K} {l : List (K × V × Nat)} :
    findVal k l = none ↔ k ∉ keysOf l := by
  induction l with
  | nil => simp [findVal, keysOf]
  | cons x rest ih =>
    obtain ⟨k', v, e⟩ := x
    rw [keysOf_cons]
    by_cases h : k' = k
    · subst h
      simp [findVal]
    · simp only [findVal, if_neg h, ih, List.mem_cons]
      constructor
      · intro hnk hc
        rcases hc with hc | hc
        · exact h hc.symm
        · exact hnk hc
      · intro hnk hc
        exact hnk (Or.inr hc)

theorem findVal_some_mem {k : K} {v : V} {l : List (K × V × Nat)}
    (h : findVal k l = some v) : ∃ e, (k, v, e) ∈ l := by
  induction l with
  | nil => simp [findVal] at h
  | cons x rest ih =>
    obtain ⟨k', v', e'⟩ := x
    by_cases hk : k' = k
    · simp [findVal, hk] at h
      exact ⟨e', by simp [hk, h]⟩
    · simp [findVal, hk] at h
      obtain ⟨e, he⟩ := ih h
      exact ⟨e, by simp [he]⟩

theorem findVal_mem_unique {k : K} {v w : V} {e : Nat} {l : List (K × V × Nat)}
    (hnd : (keysOf l).Nodup) (hmem : (k, v, e) ∈ l)
    (hfind : findVal k l = some w) : w = v := by
  induction l with
  | nil => simp at hmem
  | cons x rest ih =>
    obtain ⟨k', v', e'⟩ := x
    rw [keysOf_cons, List.nodup_cons] at hnd
    by_cases hk : k' = k
    · subst hk
      simp [findVal] at hfind
      rcases List.mem_cons.mp hmem with hx | hx
      · have hv : v = v' := by simpa using congrArg (fun p => p.2.1) hx
        rw [hv]
        exact hfind.symm
      · exact absurd (by simpa [keysOf] using List.mem_map_of_mem Prod.fst hx) hnd.1
    · simp [findVal, hk] at hfind
      rcases List.mem_cons.mp hmem with hx | hx
      · have : k = k' := by simpa using congrArg (fun p => p.1) hx
        exact absurd this.symm hk
      · exact ih hnd.2 hx hfind

theorem sumEntries_append (l₁ l₂ : List (K × V × Nat)) :
    sumEntries u z (l₁ ++ l₂) = sumEntries u z l₁ + sumEntries u z l₂ := by
  simp [sumEntries]

theorem contribution_le_sumEntries {k : K} {v : V} {l : List (K × V × Nat)}
    (h : findVal k l = some v) : u k + z v ≤ sumEntries u z l := by
  induction l with
  | nil => simp [findVal] at h
  | cons x rest ih =>
    obtain ⟨k', v', e'⟩ := x
    by_cases hk : k' = k
    · simp [findVal, hk] at h
      subst hk h
      simp [sumEntries]
    · simp [findVal, hk] at h
      have := ih h
      simp [sumEntries] at *
      omega

theorem removeKey_sublist (k : K) (l : List (K × V × Nat)) :
    List.Sublist (removeKey k l) l := by
  induction l with
  | nil => simp [removeKey]
  | cons x rest ih =>
    obtain ⟨k', v, e⟩ := x
    by_cases h : k' = k
    · simp only [removeKey, if_pos h]
      exact ih.cons _
    · simp only [removeKey, if_neg h]
      exact ih.cons₂ _

theorem not_mem_keysOf_removeKey (k : K) (l : List (K × V × Nat)) :
    k ∉ keysOf (removeKey k l) := by
  induction l with
  | nil => simp [removeKey, keysOf]
  | cons x rest ih =>
    obtain ⟨k', v, e⟩ := x
    by_cases h : k' = k <;> simp [removeKey, h, keysOf_cons]
    · exact ih
    · exact ⟨fun hk => h hk.symm, ih⟩

theorem removeKey_eq_self {k : K} {l : List (K × V × Nat)}
    (h : k ∉ keysOf l) : removeKey k l = l := by
  induction l with
  | nil => rfl
  | cons x rest ih =>
    obtain ⟨k', v, e⟩ := x
    rw [keysOf_cons] at h
    have hk : k' ≠ k := fun hkk => h (hkk ▸ List.mem_cons_self _ _)
    simp [removeKey, hk, ih (fun hm => h (List.mem_cons_of_mem _ hm))]

theorem nodup_keysOf_removeKey {k : K} {l : List (K × V × Nat)}
    (h : (keysOf l).Nodup) : (keysOf (removeKey k l)).Nodup :=
  ((removeKey_sublist k l).map Prod.fst).nodup h

theorem sumEntries_removeKey {k : K} {v : V} {l : List (K × V × Nat)}
    (hnd : (keysOf l).Nodup) (hfind : findVal k l = some v) :
    sumEntries u z (removeKey k l) + (u k + z v) = sumEntries u z l := by
  induction l with
  | nil => simp [findVal] at hfind
  | cons x rest ih =>
    obtain ⟨k', v', e'⟩ := x
    rw [keysOf_cons, List.nodup_cons] at hnd
    by_cases hk : k' = k
    · simp [findVal, hk] at hfind
      subst hk
      have hre : removeKey k' rest = rest :=
        removeKey_eq_self (by simpa using hnd.1)
      simp [removeKey, hre, sumEntries, hfind]
      omega
    · simp [findVal, hk] at hfind
      have := ih hnd.2 hfind
      simp [removeKey, hk, sumEntries] at *
      omega

theorem findVal_removeKey_ne {k k' : K} {l : List (K × V × Nat)}
    (h : k' ≠ k) : findVal k' (removeKey k l) = findVal k' l := by
  induction l with
  | nil => rfl
  | cons x rest ih =>
    obtain ⟨k0, v, e⟩ := x
    by_cases hk : k0 = k
    · subst hk
      have hne : ¬ (k0 = k') := fun hkk => h hkk.symm
      simp [removeKey, findVal, hne, ih]
    · by_cases hk' : k0 = k'
      · subst hk'
        simp [removeKey, hk, findVal]
      · simp [removeKey, hk, findVal, hk', ih]

theorem findVal_append_of_some {k : K} {v : V} {l₁ l₂ : List (K × V × Nat)}
    (h : findVal k l₁ = some v) : findVal k (l₁ ++ l₂) = some v := by
  induction l₁ with
  | nil => simp [findVal] at h
  | cons x rest ih =>
    obtain ⟨k', v', e'⟩ := x
    by_cases hk : k' = k <;> simp [findVal, hk] at h ⊢
    · exact h
    · exact ih h

theorem findVal_append_of_none {k : K} {l₁ l₂ : List (K × V × Nat)}
    (h : findVal k l₁ = none) : findVal k (l₁ ++ l₂) = findVal k l₂ := by
  induction l₁ with
  | nil => rfl
  | cons x rest ih =>
    obtain ⟨k', v', e'⟩ := x
    by_cases hk : k' = k <;> simp [findVal, hk] at h ⊢
    exact ih h

theorem keysOf_setValInPlace (k : K) (v : V) (l : List (K × V × Nat)) :
    keysOf (setValInPlace k v l) = keysOf l := by
  induction l with
  | nil => rfl
  | cons x rest ih =>
    obtain ⟨k', v', e'⟩ := x
    by_cases hk : k' = k <;> simp [setValInPlace, hk, keysOf_cons, ih]

theorem sumEntries_setValInPlace {k : K} {v₀ : V} (v : V) {l : List (K × V × Nat)}
    (hfind : findVal k l = some v₀) :
    sumEntries u z (setValInPlace k v l) + z v₀ =
      sumEntries u z l + z v := by
  induction l with
  | nil => simp [findVal] at hfind
  | cons x rest ih =>
    obtain ⟨k', v', e'⟩ := x
    by_cases hk : k' = k
    · simp [findVal, hk] at hfind
      subst hfind
      simp [setValInPlace, hk, sumEntries]
      omega
    · simp [findVal, hk] at hfind
      have := ih hfind
      simp [setValInPlace, hk, sumEntries] at *
      omega

theorem findVal_setValInPlace_self {k : K} {v₀ : V} (v : V) {l : List (K × V × Nat)}
    (hfind : findVal k l = some v₀) :
    findVal k (setValInPlace k v l) = some v := by
  induction l with
  | nil => simp [findVal] at hfind
  | cons x rest ih =>
    obtain ⟨k', v', e'⟩ := x
    by_cases hk : k' = k
    · simp [setValInPlace, hk, findVal]
    · simp [findVal, hk] at hfind
      simp [setValInPlace, hk, findVal, ih hfind]

theorem findVal_setValInPlace_ne {k k' : K} (v : V) {l : List (K × V × Nat)}
    (h : k' ≠ k) : findVal k' (setValInPlace k v l) = findVal k' l := by
  induction l with
  | nil => rfl
  | cons x rest ih =>
    obtain ⟨k0, v', e'⟩ := x
    by_cases hk : k0 = k
    · subst hk
      have hne : ¬ (k0 = k') := fun hkk => h hkk.symm
      simp [setValInPlace, findVal, hne]
    · by_cases hk' : k0 = k'
      · subst hk'
        simp [setValInPlace, hk, findVal]
      · simp [setValInPlace, hk, findVal, hk', ih]

theorem findVal_isSome_iff {k : K} {l : List (K × V × Nat)} :
    (findVal k l).isSome = true ↔ k ∈ keysOf l := by
  rcases h : findVal k l with _ | v
  · simpa [h] using findVal_eq_none_iff.mp h
  · simp [h]
    by_contra hc
    rw [findVal_eq_none_iff.mpr hc] at h
    exact Option.noConfusion h

theorem findVal_none_of_sublist {k : K} {l' l : List (K × V × Nat)}
    (hsub : List.Sublist l' l) (h : findVal k l = none) : findVal k l' = none :=
  findVal_eq_none_iff.mpr fun hm =>
    findVal_eq_none_iff.mp h ((hsub.map Prod.fst).mem hm)

theorem findVal_some_of_sublist {k : K} {w : V} {l' l : List (K × V × Nat)}
    (hsub : List.Sublist l' l) (hnd : (keysOf l).Nodup) (h : findVal k l' = some w) :
    findVal k l = some w := by
  obtain ⟨e, he⟩ := findVal_some_mem h
  have hmem : (k, w, e) ∈ l := hsub.mem he
  rcases hfl : findVal k l with _ | v
  · exact absurd (findVal_eq_none_iff.mp hfl)
      (by simpa [keysOf] using List.mem_map_of_mem Prod.fst hmem)
  · rw [findVal_mem_unique hnd hmem hfl]

theorem mem_dropWhile_of_not {α : Type} {p : α → Bool} {x : α} {l : List α}
    (hm : x ∈ l) (hp : ¬ p x = true) : x ∈ l.dropWhile p := by
  induction l with
  | nil => simp at hm
  | cons y rest ih =>
    by_cases hy : p y = true
    · rw [List.dropWhile_cons_of_pos hy]
      rcases List.mem_cons.mp hm with h | h
      · exact absurd (h ▸ hy) hp
      · exact ih h
    · rw [List.dropWhile_cons_of_neg hy]
      exact hm

theorem dropWhile_eq_filter_of_sorted {t : Nat} {l : List (K × V × Nat)}
    (hs : l.Pairwise (fun a b => a.2.2 ≤ b.2.2)) :
    l.dropWhile (fun x => decide (x.2.2 < t)) =
      l.filter (fun x => decide (t ≤ x.2.2)) := by
  induction l with
  | nil => rfl
  | cons x rest ih =>
    rw [List.pairwise_cons] at hs
    by_cases hx : x.2.2 < t
    · rw [List.dropWhile_cons_of_pos (by simpa using hx),
        List.filter_cons_of_neg (by simpa using hx)]
      exact ih hs.2
    · rw [List.dropWhile_cons_of_neg (by simpa using hx),
        List.filter_cons_of_pos (by simpa using hx)]
      have hall : ∀ y ∈ rest, t ≤ y.2.2 := fun y hy => le_trans (by omega) (hs.1 y hy)
      rw [List.filter_eq_self.mpr (by simpa using hall)]

end Lemmas

section CacheLemmas

variable {K V : Type} [DecidableEq K] {u : K → Nat} {z : V → Nat}

open ManagedLruCache

@[simp] theorem reportMemoryUsage_fst_inner (c : ManagedLruCache K V) :
    (reportMemoryUsage c).1.inner = c.inner := by
  unfold reportMemoryUsage
  split <;> rfl

@[simp] theorem reportMemoryUsage_fst_kv (c : ManagedLruCache K V) :
    (reportMemoryUsage c).1.kv_heap_size = c.kv_heap_size := by
  unfold reportMemoryUsage
  split <;> rfl

@[simp] theorem reportMemoryUsage_fst_watermark (c : ManagedLruCache K V) :
    (reportMemoryUsage c).1.watermark_epoch = c.watermark_epoch := by
  unfold reportMemoryUsage
  split <;> rfl

@[simp] theorem kvHeapSizeInc_inner (s : Nat) (c : ManagedLruCache K V) :
    (kvHeapSizeInc s c).inner = c.inner := by
  unfold kvHeapSizeInc
  rw [reportMemoryUsage_fst_inner]

@[simp] theorem kvHeapSizeInc_kv (s : Nat) (c : ManagedLruCache K V) :
    (kvHeapSizeInc s c).kv_heap_size = satAdd c.kv_heap_size s := by
  unfold kvHeapSizeInc
  rw [reportMemoryUsage_fst_kv]

@[simp] theorem kvHeapSizeDec_inner (s : Nat) (c : ManagedLruCache K V) :
    (kvHeapSizeDec s c).inner = c.inner := by
  unfold kvHeapSizeDec
  rw [reportMemoryUsage_fst_inner]

@[simp] theorem kvHeapSizeDec_kv (s : Nat) (c : ManagedLruCache K V) :
    (kvHeapSizeDec s c).kv_heap_size = c.kv_heap_size - s := by
  unfold kvHeapSizeDec
  rw [reportMemoryUsage_fst_kv]

@[simp] theorem kvHeapSizeDec_watermark (s : Nat) (c : ManagedLruCache K V) :
    (kvHeapSizeDec s c).watermark_epoch = c.watermark_epoch := by
  unfold kvHeapSizeDec
  rw [reportMemoryUsage_fst_watermark]

@[simp] theorem guardRelease_inner (orig newSize : Nat) (c : ManagedLruCache K V) :
    (guardRelease orig newSize c).inner = c.inner := by
  unfold guardRelease
  rw [reportMemoryUsage_fst_inner]

@[simp] theorem guardRelease_kv (orig newSize : Nat) (c : ManagedLruCache K V) :
    (guardRelease orig newSize c).kv_heap_size =
      satAdd (c.kv_heap_size - orig) newSize := by
  unfold guardRelease
  rw [reportMemoryUsage_fst_kv]

@[simp] theorem reportEvictedWatermarkTime_inner (e : Nat) (c : ManagedLruCache K V) :
    (reportEvictedWatermarkTime e c).inner = c.inner := rfl

@[simp] theorem reportEvictedWatermarkTime_kv (e : Nat) (c : ManagedLruCache K V) :
    (reportEvictedWatermarkTime e c).kv_heap_size = c.kv_heap_size := rfl

/-- When no saturation occurs, `satAdd` is plain addition. -/
theorem satAdd_eq {a b : Nat} (h : a + b ≤ USIZE_MAX) : satAdd a b = a + b :=
  min_eq_left h

theorem put_fst (k : K) (v : V) (c : ManagedLruCache K V) :
    (ManagedLruCache.put u z k v c).1 = findVal k c.inner.entries := by
  unfold ManagedLruCache.put LruCache.put
  rcases hfv : findVal k c.inner.entries with _ | ov <;>
    simp [hfv]

theorem put_entries (k : K) (v : V) (c : ManagedLruCache K V) :
    (ManagedLruCache.put u z k v c).2.inner.entries =
      removeKey k c.inner.entries ++ [(k, v, c.inner.cur_epoch)] := by
  unfold ManagedLruCache.put LruCache.put
  rcases hfv : findVal k c.inner.entries with _ | ov <;>
    simp [hfv]

theorem put_cur_epoch (k : K) (v : V) (c : ManagedLruCache K V) :
    (ManagedLruCache.put u z k v c).2.inner.cur_epoch = c.inner.cur_epoch := by
  unfold ManagedLruCache.put LruCache.put
  rcases hfv : findVal k c.inner.entries with _ | ov <;>
    simp [hfv]

theorem put_kv_of_none {k : K} (v : V) {c : ManagedLruCache K V}
    (hfv : findVal k c.inner.entries = none) :
    (ManagedLruCache.put u z k v c).2.kv_heap_size =
      satAdd c.kv_heap_size (u k + z v) := by
  unfold ManagedLruCache.put LruCache.put
  simp [hfv]

theorem put_kv_of_some {k : K} (v : V) {ov : V} {c : ManagedLruCache K V}
    (hfv : findVal k c.inner.entries = some ov) :
    (ManagedLruCache.put u z k v c).2.kv_heap_size =
      satAdd c.kv_heap_size (u k + z v) - (u k + z ov) := by
  unfold ManagedLruCache.put LruCache.put
  simp [hfv]

theorem push_spec_some {k : K} (v : V) {ov : V} {c : ManagedLruCache K V}
    (hfv : findVal k c.inner.entries = some ov) :
    (ManagedLruCache.push u z k v c).2.inner.entries =
        removeKey k c.inner.entries ++ [(k, v, c.inner.cur_epoch)] ∧
      (ManagedLruCache.push u z k v c).2.kv_heap_size =
        satAdd c.kv_heap_size (u k + z v) - (u k + z ov) ∧
      (ManagedLruCache.push u z k v c).1 = some (k, ov) := by
  unfold ManagedLruCache.push LruCache.push
  simp [hfv]

theorem push_spec_nocap {k : K} (v : V) {c : ManagedLruCache K V}
    (hfv : findVal k c.inner.entries = none)
    (hcap : c.inner.capacity = none) :
    (ManagedLruCache.push u z k v c).2.inner.entries =
        c.inner.entries ++ [(k, v, c.inner.cur_epoch)] ∧
      (ManagedLruCache.push u z k v c).2.kv_heap_size =
        satAdd c.kv_heap_size (u k + z v) ∧
      (ManagedLruCache.push u z k v c).1 = none := by
  unfold ManagedLruCache.push LruCache.push
  simp [hfv, hcap]

theorem push_spec_room {k : K} (v : V) {cap : Nat} {c : ManagedLruCache K V}
    (hfv : findVal k c.inner.entries = none)
    (hcap : c.inner.capacity = some cap)
    (hlen : ¬ cap ≤ c.inner.entries.length) :
    (ManagedLruCache.push u z k v c).2.inner.entries =
        c.inner.entries ++ [(k, v, c.inner.cur_epoch)] ∧
      (ManagedLruCache.push u z k v c).2.kv_heap_size =
        satAdd c.kv_heap_size (u k + z v) ∧
      (ManagedLruCache.push u z k v c).1 = none := by
  unfold ManagedLruCache.push LruCache.push
  simp [hfv, hcap, hlen]

theorem push_spec_evict {k : K} (v : V) {cap : Nat} {k0 : K} {v0 : V} {e0 : Nat}
    {rest : List (K × V × Nat)} {c : ManagedLruCache K V}
    (hfv : findVal k c.inner.entries = none)
    (hcap : c.inner.capacity = some cap)
    (hlen : cap ≤ c.inner.entries.length)
    (hent : c.inner.entries = (k0, v0, e0) :: rest) :
    (ManagedLruCache.push u z k v c).2.inner.entries =
        rest ++ [(k, v, c.inner.cur_epoch)] ∧
      (ManagedLruCache.push u z k v c).2.kv_heap_size =
        satAdd c.kv_heap_size (u k + z v) - (u k0 + z v0) ∧
      (ManagedLruCache.push u z k v c).1 = some (k0, v0) := by
  rw [hent] at hfv hlen
  simp only [List.length_cons] at hlen
  unfold ManagedLruCache.push LruCache.push
  simp [hfv, hcap, hent, hlen]

theorem push_spec_evict_empty {k : K} (v : V) {cap : Nat} {c : ManagedLruCache K V}
    (hfv : findVal k c.inner.entries = none)
    (hcap : c.inner.capacity = some cap)
    (hlen : cap ≤ c.inner.entries.length)
    (hent : c.inner.entries = []) :
    (ManagedLruCache.push u z k v c).2.inner.entries =
        [(k, v, c.inner.cur_epoch)] ∧
      (ManagedLruCache.push u z k v c).2.kv_heap_size =
        satAdd c.kv_heap_size (u k + z v) ∧
      (ManagedLruCache.push u z k v c).1 = none := by
  rw [hent] at hfv hlen
  simp only [List.length_nil] at hlen
  unfold ManagedLruCache.push LruCache.push
  simp [hfv, hcap, hent, hlen]

theorem get_spec_some {k : K} {v : V} {c : ManagedLruCache K V}
    (hfv : findVal k c.inner.entries = some v) :
    (ManagedLruCache.get k c).2.inner.entries =
        removeKey k c.inner.entries ++ [(k, v, c.inner.cur_epoch)] ∧
      (ManagedLruCache.get k c).2.kv_heap_size = c.kv_heap_size ∧
      (ManagedLruCache.get k c).1 = some v := by
  unfold ManagedLruCache.get LruCache.get
  simp [hfv]

theorem get_spec_none {k : K} {c : ManagedLruCache K V}
    (hfv : findVal k c.inner.entries = none) :
    (ManagedLruCache.get k c).2 = c ∧ (ManagedLruCache.get k c).1 = none := by
  unfold ManagedLruCache.get LruCache.get
  simp [hfv]

theorem get_fst (k : K) (c : ManagedLruCache K V) :
    (ManagedLruCache.get k c).1 = findVal k c.inner.entries := by
  rcases hfv : findVal k c.inner.entries with _ | v
  · exact (get_spec_none hfv).2
  · exact (get_spec_some hfv).2.2

theorem getMutApply_spec_some {k : K} {v : V} (f : V → V) {c : ManagedLruCache K V}
    (hfv : findVal k c.inner.entries = some v) :
    (getMutApply z k f c).inner.entries =
        removeKey k c.inner.entries ++ [(k, f v, c.inner.cur_epoch)] ∧
      (getMutApply z k f c).kv_heap_size =
        satAdd (c.kv_heap_size - z v) (z (f v)) := by
  unfold getMutApply
  simp [hfv]

theorem getMutApply_spec_none {k : K} (f : V → V) {c : ManagedLruCache K V}
    (hfv : findVal k c.inner.entries = none) :
    getMutApply z k f c = c := by
  unfold getMutApply
  simp [hfv]

theorem peekMutApply_spec_some {k : K} {v : V} (f : V → V) {c : ManagedLruCache K V}
    (hfv : findVal k c.inner.entries = some v) :
    (peekMutApply z k f c).inner.entries =
        setValInPlace k (f v) c.inner.entries ∧
      (peekMutApply z k f c).kv_heap_size =
        satAdd (c.kv_heap_size - z v) (z (f v)) := by
  unfold peekMutApply
  simp [hfv]

theorem peekMutApply_spec_none {k : K} (f : V → V) {c : ManagedLruCache K V}
    (hfv : findVal k c.inner.entries = none) :
    peekMutApply z k f c = c := by
  unfold peekMutApply
  simp [hfv]

theorem evictRec_entries {t : Nat} {l : List (K × V × Nat)} :
    ∀ {c : ManagedLruCache K V}, c.inner.entries = l →
      (evictRec u z t l c).inner.entries =
        l.dropWhile (fun x => decide (x.2.2 < t)) := by
  induction l with
  | nil => intro c hc; simpa [evictRec]
  | cons x rest ih =>
    intro c hc
    obtain ⟨k, v, e⟩ := x
    by_cases he : e < t
    · rw [List.dropWhile_cons_of_pos (by simpa using he)]
      unfold evictRec
      rw [if_pos he]
      exact ih (by simp)
    · rw [List.dropWhile_cons_of_neg (by simpa using he)]
      unfold evictRec
      rw [if_neg he, hc]

theorem evictRec_kv_sum {t : Nat} {l : List (K × V × Nat)} :
    ∀ {c : ManagedLruCache K V}, c.inner.entries = l →
      c.kv_heap_size = sumEntries u z l →
      (evictRec u z t l c).kv_heap_size =
        sumEntries u z (l.dropWhile (fun x => decide (x.2.2 < t))) := by
  induction l with
  | nil => intro c hc hs; simpa [evictRec]
  | cons x rest ih =>
    intro c hc hs
    obtain ⟨k, v, e⟩ := x
    by_cases he : e < t
    · rw [List.dropWhile_cons_of_pos (by simpa using he)]
      unfold evictRec
      rw [if_pos he]
      refine ih (by simp) ?_
      rw [kvHeapSizeDec_kv]
      simp only [hs, sumEntries, List.map_cons, List.sum_cons]
      omega
    · rw [List.dropWhile_cons_of_neg (by simpa using he)]
      unfold evictRec
      rw [if_neg he, hs]

theorem evictByEpoch_entries (t : Nat) (c : ManagedLruCache K V) :
    (evictByEpoch u z t c).inner.entries =
      c.inner.entries.dropWhile (fun x => decide (x.2.2 < t)) := by
  unfold evictByEpoch
  rw [reportEvictedWatermarkTime_inner]
  exact evictRec_entries rfl

theorem evictByEpoch_kv_sum {t : Nat} {c : ManagedLruCache K V}
    (hs : c.kv_heap_size = sumSize u z c) :
    (evictByEpoch u z t c).kv_heap_size =
      sumEntries u z (c.inner.entries.dropWhile (fun x => decide (x.2.2 < t))) := by
  unfold evictByEpoch
  rw [reportEvictedWatermarkTime_kv]
  exact evictRec_kv_sum rfl hs

theorem WF_newUnbounded (w : Nat) :
    WF u z (newUnbounded w : ManagedLruCache K V) :=
  ⟨List.nodup_nil, rfl⟩

theorem WF_put {c : ManagedLruCache K V} {k : K} {v : V}
    (hwf : WF u z c) (hok : c.kv_heap_size + (u k + z v) ≤ USIZE_MAX) :
    WF u z (ManagedLruCache.put u z k v c).2 := by
  obtain ⟨hnd, hsum⟩ := hwf
  constructor
  · rw [put_entries, keysOf_append, List.nodup_append]
    refine ⟨nodup_keysOf_removeKey hnd, List.nodup_singleton _, ?_⟩
    intro a ha hb
    exact not_mem_keysOf_removeKey k c.inner.entries
      (((by simpa [keysOf] using hb) : a = k) ▸ ha)
  · rcases hfv : findVal k c.inner.entries with _ | ov
    · rw [put_kv_of_none v hfv, satAdd_eq hok]
      unfold sumSize at hsum ⊢
      rw [put_entries, sumEntries_append,
        removeKey_eq_self (findVal_eq_none_iff.mp hfv)]
      simp [sumEntries] at hsum ⊢
      omega
    · rw [put_kv_of_some v hfv, satAdd_eq hok]
      unfold sumSize at hsum ⊢
      rw [put_entries, sumEntries_append]
      have hrem := sumEntries_removeKey (u := u) (z := z) hnd hfv
      have hle := contribution_le_sumEntries (u := u) (z := z) hfv
      simp [sumEntries] at hsum hrem hle ⊢
      omega

theorem WF_push {c : ManagedLruCache K V} {k : K} {v : V}
    (hwf : WF u z c) (hok : c.kv_heap_size + (u k + z v) ≤ USIZE_MAX) :
    WF u z (ManagedLruCache.push u z k v c).2 := by
  obtain ⟨hnd, hsum⟩ := hwf
  rcases hfv : findVal k c.inner.entries with _ | ov
  · rcases hcap : c.inner.capacity with _ | cap
    · obtain ⟨he, hkv, -⟩ := push_spec_nocap (u := u) (z := z) v hfv hcap
      constructor
      · rw [he, keysOf_append, List.nodup_append]
        exact ⟨hnd, List.nodup_singleton _, fun a ha hb =>
          findVal_eq_none_iff.mp hfv (((by simpa [keysOf] using hb) : a = k) ▸ ha)⟩
      · rw [hkv, satAdd_eq hok]
        unfold sumSize at hsum ⊢
        rw [he, sumEntries_append]
        simp [sumEntries] at hsum ⊢
        omega
    · by_cases hlen : cap ≤ c.inner.entries.length
      · rcases hent : c.inner.entries with _ | ⟨⟨k0, v0, e0⟩, rest⟩
        · obtain ⟨he, hkv, -⟩ :=
            push_spec_evict_empty (u := u) (z := z) v hfv hcap hlen hent
          constructor
          · rw [he]
            simp [keysOf]
          · rw [hkv, satAdd_eq hok]
            unfold sumSize at hsum ⊢
            rw [he]
            rw [hent] at hsum
            simp [sumEntries] at hsum ⊢
            omega
        · obtain ⟨he, hkv, -⟩ :=
            push_spec_evict (u := u) (z := z) v hfv hcap hlen hent
          have hnd' : (keysOf ((k0, v0, e0) :: rest)).Nodup := hent ▸ hnd
          rw [keysOf_cons, List.nodup_cons] at hnd'
          have hkm : k ∉ keysOf c.inner.entries := findVal_eq_none_iff.mp hfv
          constructor
          · rw [he, keysOf_append, List.nodup_append]
            refine ⟨hnd'.2, List.nodup_singleton _, ?_⟩
            intro a ha hb
            have hak : a = k := by simpa [keysOf] using hb
            rw [hent, keysOf_cons] at hkm
            exact hkm (List.mem_cons_of_mem _ (hak ▸ ha))
          · rw [hkv, satAdd_eq hok]
            unfold sumSize at hsum ⊢
            rw [he, sumEntries_append]
            rw [hent] at hsum
            simp [sumEntries] at hsum ⊢
            omega
      · obtain ⟨he, hkv, -⟩ :=
          push_spec_room (u := u) (z := z) v hfv hcap hlen
        constructor
        · rw [he, keysOf_append, List.nodup_append]
          exact ⟨hnd, List.nodup_singleton _, fun a ha hb =>
            findVal_eq_none_iff.mp hfv (((by simpa [keysOf] using hb) : a = k) ▸ ha)⟩
        · rw [hkv, satAdd_eq hok]
          unfold sumSize at hsum ⊢
          rw [he, sumEntries_append]
          simp [sumEntries] at hsum ⊢
          omega
  · obtain ⟨he, hkv, -⟩ := push_spec_some (u := u) (z := z) v hfv
    constructor
    · rw [he, keysOf_append, List.nodup_append]
      refine ⟨nodup_keysOf_removeKey hnd, List.nodup_singleton _, ?_⟩
      intro a ha hb
      exact not_mem_keysOf_removeKey k c.inner.entries
        (((by simpa [keysOf] using hb) : a = k) ▸ ha)
    · rw [hkv, satAdd_eq hok]
      unfold sumSize at hsum ⊢
      rw [he, sumEntries_append]
      have hrem := sumEntries_removeKey (u := u) (z := z) hnd hfv
      have hle := contribution_le_sumEntries (u := u) (z := z) hfv
      simp [sumEntries] at hsum hrem hle ⊢
      omega

theorem WF_get {c : ManagedLruCache K V} {k : K}
    (hwf : WF u z c) : WF u z (ManagedLruCache.get k c).2 := by
  obtain ⟨hnd, hsum⟩ := hwf
  rcases hfv : findVal k c.inner.entries with _ | v
  · rw [(get_spec_none hfv).1]
    exact ⟨hnd, hsum⟩
  · obtain ⟨he, hkv, -⟩ := get_spec_some hfv
    constructor
    · rw [he, keysOf_append, List.nodup_append]
      refine ⟨nodup_keysOf_removeKey hnd, List.nodup_singleton _, ?_⟩
      intro a ha hb
      exact not_mem_keysOf_removeKey k c.inner.entries
        (((by simpa [keysOf] using hb) : a = k) ▸ ha)
    · rw [hkv]
      unfold sumSize at hsum ⊢
      rw [he, sumEntries_append]
      have hrem := sumEntries_removeKey (u := u) (z := z) hnd hfv
      simp [sumEntries] at hsum hrem ⊢
      omega

theorem WF_getMut {c : ManagedLruCache K V} {k : K} {f : V → V}
    (hwf : WF u z c)
    (hok : (findVal k c.inner.entries).elim True
      (fun v => c.kv_heap_size - z v + z (f v) ≤ USIZE_MAX)) :
    WF u z (getMutApply z k f c) := by
  obtain ⟨hnd, hsum⟩ := hwf
  rcases hfv : findVal k c.inner.entries with _ | v
  · rw [getMutApply_spec_none f hfv]
    exact ⟨hnd, hsum⟩
  · rw [hfv] at hok
    simp only [Option.elim] at hok
    obtain ⟨he, hkv⟩ := getMutApply_spec_some f hfv
    constructor
    · rw [he, keysOf_append, List.nodup_append]
      refine ⟨nodup_keysOf_removeKey hnd, List.nodup_singleton _, ?_⟩
      intro a ha hb
      exact not_mem_keysOf_removeKey k c.inner.entries
        (((by simpa [keysOf] using hb) : a = k) ▸ ha)
    · rw [hkv, satAdd_eq hok]
      unfold sumSize at hsum ⊢
      rw [he, sumEntries_append]
      have hrem := sumEntries_removeKey (u := u) (z := z) hnd hfv
      have hle := contribution_le_sumEntries (u := u) (z := z) hfv
      simp [sumEntries] at hsum hrem hle ⊢
      omega

theorem WF_peekMut {c : ManagedLruCache K V} {k : K} {f : V → V}
    (hwf : WF u z c)
    (hok : (findVal k c.inner.entries).elim True
      (fun v => c.kv_heap_size - z v + z (f v) ≤ USIZE_MAX)) :
    WF u z (peekMutApply z k f c) := by
  obtain ⟨hnd, hsum⟩ := hwf
  rcases hfv : findVal k c.inner.entries with _ | v
  · rw [peekMutApply_spec_none f hfv]
    exact ⟨hnd, hsum⟩
  · rw [hfv] at hok
    simp only [Option.elim] at hok
    obtain ⟨he, hkv⟩ := peekMutApply_spec_some f hfv
    constructor
    · rw [he, keysOf_setValInPlace]
      exact hnd
    · rw [hkv, satAdd_eq hok]
      unfold sumSize at hsum ⊢
      rw [he]
      have hset := sumEntries_setValInPlace (u := u) (z := z) (f v) hfv
      have hle := contribution_le_sumEntries (u := u) (z := z) hfv
      simp [sumEntries] at hsum hset hle ⊢
      omega

theorem WF_evictByEpoch {t : Nat} {c : ManagedLruCache K V}
    (hwf : WF u z c) : WF u z (evictByEpoch u z t c) := by
  obtain ⟨hnd, hsum⟩ := hwf
  constructor
  · rw [evictByEpoch_entries]
    exact ((List.dropWhile_sublist _).map Prod.fst).nodup hnd
  · rw [evictByEpoch_kv_sum hsum]
    unfold sumSize
    rw [evictByEpoch_entries]

theorem step_WF {c : ManagedLruCache K V} {op : Op K V}
    (hwf : WF u z c) (hok : opOk u z c op) (hnc : op ≠ Op.clear) :
    WF u z (step u z c op) := by
  cases op with
  | put k v => exact WF_put hwf hok
  | push k v => exact WF_push hwf hok
  | get k => exact WF_get hwf
  | peek k => exact hwf
  | getMut k f => exact WF_getMut hwf hok
  | peekMut k f => exact WF_peekMut hwf hok
  | evict => exact WF_evictByEpoch hwf
  | evictExceptCurEpoch => exact WF_evictByEpoch hwf
  | clear => exact absurd rfl hnc
  | updateEpoch e => exact hwf
  | setWatermark w => exact hwf

theorem run_WF {c : ManagedLruCache K V} {ops : List (Op K V)}
    (hwf : WF u z c) (hok : stepsOk u z c ops) (hnc : Op.clear ∉ ops) :
    WF u z (run u z c ops) := by
  induction ops generalizing c with
  | nil => exact hwf
  | cons op rest ih =>
    have h1 : op ≠ Op.clear := fun h => hnc (List.mem_cons.mpr (Or.inl h.symm))
    have h2 : Op.clear ∉ rest := fun hm => hnc (List.mem_cons.mpr (Or.inr hm))
    exact ih (step_WF hwf hok.1 h1) hok.2 h2

theorem nodup_keysOf_concat {k : K} {v : V} {e : Nat} {l : List (K × V × Nat)}
    (hnd : (keysOf l).Nodup) (hk : k ∉ keysOf l) :
    (keysOf (l ++ [(k, v, e)])).Nodup := by
  rw [keysOf_append, List.nodup_append]
  exact ⟨hnd, List.nodup_singleton _, fun a ha hb =>
    hk (((by simpa [keysOf] using hb) : a = k) ▸ ha)⟩

theorem nodup_keysOf_removeKey_concat {k : K} {v : V} {e : Nat}
    {l : List (K × V × Nat)} (hnd : (keysOf l).Nodup) :
    (keysOf (removeKey k l ++ [(k, v, e)])).Nodup :=
  nodup_keysOf_concat (nodup_keysOf_removeKey hnd) (not_mem_keysOf_removeKey k l)

theorem contains_eq (k : K) (c : ManagedLruCache K V) :
    ManagedLruCache.contains k c = (findVal k c.inner.entries).isSome := rfl

theorem step_nodup {c : ManagedLruCache K V} (op : Op K V)
    (hnd : (keysOf c.inner.entries).Nodup) :
    (keysOf (step u z c op).inner.entries).Nodup := by
  cases op with
  | put k v =>
    rw [show (step u z c (Op.put k v)) = (ManagedLruCache.put u z k v c).2 from rfl,
      put_entries]
    exact nodup_keysOf_removeKey_concat hnd
  | push k v =>
    rcases hfv : findVal k c.inner.entries with _ | ov
    · rcases hcap : c.inner.capacity with _ | cap
      · rw [show (step u z c (Op.push k v)) = (ManagedLruCache.push u z k v c).2 from rfl,
          (push_spec_nocap (u := u) (z := z) v hfv hcap).1]
        exact nodup_keysOf_concat hnd (findVal_eq_none_iff.mp hfv)
      · by_cases hlen : cap ≤ c.inner.entries.length
        · rcases hent : c.inner.entries with _ | ⟨⟨k0, v0, e0⟩, rest⟩
          · rw [show (step u z c (Op.push k v)) = (ManagedLruCache.push u z k v c).2 from rfl,
              (push_spec_evict_empty (u := u) (z := z) v hfv hcap hlen hent).1]
            simp [keysOf]
          · have hnd' : (keysOf ((k0, v0, e0) :: rest)).Nodup := hent ▸ hnd
            rw [keysOf_cons, List.nodup_cons] at hnd'
            have hkm : k ∉ keysOf c.inner.entries := findVal_eq_none_iff.mp hfv
            rw [hent, keysOf_cons] at hkm
            rw [show (step u z c (Op.push k v)) = (ManagedLruCache.push u z k v c).2 from rfl,
              (push_spec_evict (u := u) (z := z) v hfv hcap hlen hent).1]
            exact nodup_keysOf_concat hnd'.2
              (fun hm => hkm (List.mem_cons_of_mem _ hm))
        · rw [show (step u z c (Op.push k v)) = (ManagedLruCache.push u z k v c).2 from rfl,
            (push_spec_room (u := u) (z := z) v hfv hcap hlen).1]
          exact nodup_keysOf_concat hnd (findVal_eq_none_iff.mp hfv)
    · rw [show (step u z c (Op.push k v)) = (ManagedLruCache.push u z k v c).2 from rfl,
        (push_spec_some (u := u) (z := z) v hfv).1]
      exact nodup_keysOf_removeKey_concat hnd
  | get k =>
    rcases hfv : findVal k c.inner.entries with _ | v
    · rw [show (step u z c (Op.get k)) = (ManagedLruCache.get k c).2 from rfl,
        (get_spec_none hfv).1]
      exact hnd
    · rw [show (step u z c (Op.get k)) = (ManagedLruCache.get k c).2 from rfl,
        (get_spec_some hfv).1]
      exact nodup_keysOf_removeKey_concat hnd
  | peek k => exact hnd
  | getMut k f =>
    rcases hfv : findVal k c.inner.entries with _ | v
    · rw [show (step u z c (Op.getMut k f)) = getMutApply z k f c from rfl,
        getMutApply_spec_none f hfv]
      exact hnd
    · rw [show (step u z c (Op.getMut k f)) = getMutApply z k f c from rfl,
        (getMutApply_spec_some f hfv).1]
      exact nodup_keysOf_removeKey_concat hnd
  | peekMut k f =>
    rcases hfv : findVal k c.inner.entries with _ | v
    · rw [show (step u z c (Op.peekMut k f)) = peekMutApply z k f c from rfl,
        peekMutApply_spec_none f hfv]
      exact hnd
    · rw [show (step u z c (Op.peekMut k f)) = peekMutApply z k f c from rfl,
        (peekMutApply_spec_some f hfv).1, keysOf_setValInPlace]
      exact hnd
  | evict =>
    rw [show (step u z c Op.evict) = evictByEpoch u z c.watermark_epoch c from rfl,
      evictByEpoch_entries]
    exact ((List.dropWhile_sublist _).map Prod.fst).nodup hnd
  | evictExceptCurEpoch =>
    rw [show (step u z c Op.evictExceptCurEpoch) =
        evictByEpoch u z (min c.watermark_epoch c.inner.cur_epoch) c from rfl,
      evictByEpoch_entries]
    exact ((List.dropWhile_sublist _).map Prod.fst).nodup hnd
  | clear => exact List.nodup_nil
  | updateEpoch e => exact hnd
  | setWatermark w => exact hnd

theorem step_findVal_none {c : ManagedLruCache K V} {op : Op K V} {k : K}
    (hfv : findVal k c.inner.entries = none) (hav : avoidsKey k op) :
    findVal k (step u z c op).inner.entries = none := by
  cases op with
  | put kk v =>
    have havp : kk ≠ k := hav
    have havs : k ≠ kk := fun h => havp h.symm
    rw [show (step u z c (Op.put kk v)) = (ManagedLruCache.put u z kk v c).2 from rfl,
      put_entries,
      findVal_append_of_none (by rw [findVal_removeKey_ne havs]; exact hfv)]
    simp [findVal, havp]
  | push kk v =>
    have havp : kk ≠ k := hav
    have havs : k ≠ kk := fun h => havp h.symm
    rcases hfv2 : findVal kk c.inner.entries with _ | ov
    · rcases hcap : c.inner.capacity with _ | cap
      · rw [show (step u z c (Op.push kk v)) = (ManagedLruCache.push u z kk v c).2 from rfl,
          (push_spec_nocap (u := u) (z := z) v hfv2 hcap).1,
          findVal_append_of_none hfv]
        simp [findVal, havp]
      · by_cases hlen : cap ≤ c.inner.entries.length
        · rcases hent : c.inner.entries with _ | ⟨⟨k0, v0, e0⟩, rest⟩
          · rw [show (step u z c (Op.push kk v)) = (ManagedLruCache.push u z kk v c).2 from rfl,
              (push_spec_evict_empty (u := u) (z := z) v hfv2 hcap hlen hent).1]
            simp [findVal, havp]
          · have hrest : findVal k rest = none := by
              rw [hent] at hfv
              by_cases hk0 : k0 = k
              · simp [findVal, hk0] at hfv
              · simpa [findVal, hk0] using hfv
            rw [show (step u z c (Op.push kk v)) = (ManagedLruCache.push u z kk v c).2 from rfl,
              (push_spec_evict (u := u) (z := z) v hfv2 hcap hlen hent).1,
              findVal_append_of_none hrest]
            simp [findVal, havp]
        · rw [show (step u z c (Op.push kk v)) = (ManagedLruCache.push u z kk v c).2 from rfl,
            (push_spec_room (u := u) (z := z) v hfv2 hcap hlen).1,
            findVal_append_of_none hfv]
          simp [findVal, havp]
    · rw [show (step u z c (Op.push kk v)) = (ManagedLruCache.push u z kk v c).2 from rfl,
        (push_spec_some (u := u) (z := z) v hfv2).1,
        findVal_append_of_none (by rw [findVal_removeKey_ne havs]; exact hfv)]
      simp [findVal, havp]
  | get kk =>
    rcases hfv2 : findVal kk c.inner.entries with _ | w
    · rw [show (step u z c (Op.get kk)) = (ManagedLruCache.get kk c).2 from rfl,
        (get_spec_none hfv2).1]
      exact hfv
    · have hkk : kk ≠ k := by
        intro h
        rw [h, hfv] at hfv2
        exact Option.noConfusion hfv2
      have hks : k ≠ kk := fun h => hkk h.symm
      rw [show (step u z c (Op.get kk)) = (ManagedLruCache.get kk c).2 from rfl,
        (get_spec_some hfv2).1,
        findVal_append_of_none (by rw [findVal_removeKey_ne hks]; exact hfv)]
      simp [findVal, hkk]
  | peek kk => exact hfv
  | getMut kk f =>
    have havp : kk ≠ k := hav
    have havs : k ≠ kk := fun h => havp h.symm
    rcases hfv2 : findVal kk c.inner.entries with _ | w
    · rw [show (step u z c (Op.getMut kk f)) = getMutApply z kk f c from rfl,
        getMutApply_spec_none f hfv2]
      exact hfv
    · rw [show (step u z c (Op.getMut kk f)) = getMutApply z kk f c from rfl,
        (getMutApply_spec_some f hfv2).1,
        findVal_append_of_none (by rw [findVal_removeKey_ne havs]; exact hfv)]
      simp [findVal, havp]
  | peekMut kk f =>
    have havp : kk ≠ k := hav
    have havs : k ≠ kk := fun h => havp h.symm
    rcases hfv2 : findVal kk c.inner.entries with _ | w
    · rw [show (step u z c (Op.peekMut kk f)) = peekMutApply z kk f c from rfl,
        peekMutApply_spec_none f hfv2]
      exact hfv
    · rw [show (step u z c (Op.peekMut kk f)) = peekMutApply z kk f c from rfl,
        (peekMutApply_spec_some f hfv2).1, findVal_setValInPlace_ne _ havs]
      exact hfv
  | evict =>
    rw [show (step u z c Op.evict) = evictByEpoch u z c.watermark_epoch c from rfl,
      evictByEpoch_entries]
    exact findVal_none_of_sublist (List.dropWhile_sublist _) hfv
  | evictExceptCurEpoch =>
    rw [show (step u z c Op.evictExceptCurEpoch) =
        evictByEpoch u z (min c.watermark_epoch c.inner.cur_epoch) c from rfl,
      evictByEpoch_entries]
    exact findVal_none_of_sublist (List.dropWhile_sublist _) hfv
  | clear => rfl
  | updateEpoch e => exact hfv
  | setWatermark w => exact hfv

theorem step_findVal_some {c : ManagedLruCache K V} {op : Op K V} {k : K} {v : V}
    (hnd : (keysOf c.inner.entries).Nodup)
    (hfv : findVal k c.inner.entries = some v) (hav : avoidsKey k op) :
    findVal k (step u z c op).inner.entries = some v ∨
      findVal k (step u z c op).inner.entries = none := by
  rcases hres : findVal k (step u z c op).inner.entries with _ | w
  · exact Or.inr rfl
  · refine Or.inl ?_
    suffices hw : w = v by rw [hw]
    cases op with
    | put kk vv =>
      have havp : kk ≠ k := hav
      have havs : k ≠ kk := fun h => havp h.symm
      rw [show (step u z c (Op.put kk vv)) = (ManagedLruCache.put u z kk vv c).2 from rfl,
        put_entries, findVal_append_of_some (by rw [findVal_removeKey_ne havs]; exact hfv)]
        at hres
      exact (Option.some_inj.mp hres).symm
    | push kk vv =>
      have havp : kk ≠ k := hav
      have havs : k ≠ kk := fun h => havp h.symm
      rcases hfv2 : findVal kk c.inner.entries with _ | ov
      · rcases hcap : c.inner.capacity with _ | cap
        · rw [show (step u z c (Op.push kk vv)) = (ManagedLruCache.push u z kk vv c).2 from rfl,
            (push_spec_nocap (u := u) (z := z) vv hfv2 hcap).1,
            findVal_append_of_some hfv] at hres
          exact (Option.some_inj.mp hres).symm
        · by_cases hlen : cap ≤ c.inner.entries.length
          · rcases hent : c.inner.entries with _ | ⟨⟨k0, v0, e0⟩, rest⟩
            · rw [hent] at hfv
              simp [findVal] at hfv
            · rw [show (step u z c (Op.push kk vv)) = (ManagedLruCache.push u z kk vv c).2 from rfl,
                (push_spec_evict (u := u) (z := z) vv hfv2 hcap hlen hent).1] at hres
              have hnd' : (keysOf ((k0, v0, e0) :: rest)).Nodup := hent ▸ hnd
              rw [keysOf_cons, List.nodup_cons] at hnd'
              by_cases hk0 : k0 = k
              · have hrest : findVal k rest = none := by
                  rw [← hk0]
                  exact findVal_eq_none_iff.mpr hnd'.1
                rw [findVal_append_of_none hrest] at hres
                simp [findVal, havp] at hres
              · have hrest : findVal k rest = some v := by
                  rw [hent] at hfv
                  simpa [findVal, hk0] using hfv
                rw [findVal_append_of_some hrest] at hres
                exact (Option.some_inj.mp hres).symm
          · rw [show (step u z c (Op.push kk vv)) = (ManagedLruCache.push u z kk vv c).2 from rfl,
              (push_spec_room (u := u) (z := z) vv hfv2 hcap hlen).1,
              findVal_append_of_some hfv] at hres
            exact (Option.some_inj.mp hres).symm
      · rw [show (step u z c (Op.push kk vv)) = (ManagedLruCache.push u z kk vv c).2 from rfl,
          (push_spec_some (u := u) (z := z) vv hfv2).1,
          findVal_append_of_some (by rw [findVal_removeKey_ne havs]; exact hfv)] at hres
        exact (Option.some_inj.mp hres).symm
    | get kk =>
      rcases hfv2 : findVal kk c.inner.entries with _ | ww
      · rw [show (step u z c (Op.get kk)) = (ManagedLruCache.get kk c).2 from rfl,
          (get_spec_none hfv2).1, hfv] at hres
        exact (Option.some_inj.mp hres).symm
      · by_cases hkk : kk = k
        · subst hkk
          rw [hfv2] at hfv
          have hvw : ww = v := Option.some_inj.mp hfv
          subst hvw
          rw [show (step u z c (Op.get kk)) = (ManagedLruCache.get kk c).2 from rfl,
            (get_spec_some hfv2).1,
            findVal_append_of_none
              (findVal_eq_none_iff.mpr (not_mem_keysOf_removeKey kk _))] at hres
          simp [findVal] at hres
          exact hres.symm
        · have hks : k ≠ kk := fun h => hkk h.symm
          rw [show (step u z c (Op.get kk)) = (ManagedLruCache.get kk c).2 from rfl,
            (get_spec_some hfv2).1,
            findVal_append_of_some (by rw [findVal_removeKey_ne hks]; exact hfv)] at hres
          exact (Option.some_inj.mp hres).symm
    | peek kk =>
      rw [show (step u z c (Op.peek kk)) = c from rfl, hfv] at hres
      exact (Option.some_inj.mp hres).symm
    | getMut kk f =>
      have havp : kk ≠ k := hav
      have havs : k ≠ kk := fun h => havp h.symm
      rcases hfv2 : findVal kk c.inner.entries with _ | ww
      · rw [show (step u z c (Op.getMut kk f)) = getMutApply z kk f c from rfl,
          getMutApply_spec_none f hfv2, hfv] at hres
        exact (Option.some_inj.mp hres).symm
      · rw [show (step u z c (Op.getMut kk f)) = getMutApply z kk f c from rfl,
          (getMutApply_spec_some f hfv2).1,
          findVal_append_of_some (by rw [findVal_removeKey_ne havs]; exact hfv)] at hres
        exact (Option.some_inj.mp hres).symm
    | peekMut kk f =>
      have havp : kk ≠ k := hav
      have havs : k ≠ kk := fun h => havp h.symm
      rcases hfv2 : findVal kk c.inner.entries with _ | ww
      · rw [show (step u z c (Op.peekMut kk f)) = peekMutApply z kk f c from rfl,
          peekMutApply_spec_none f hfv2, hfv] at hres
        exact (Option.some_inj.mp hres).symm
      · rw [show (step u z c (Op.peekMut kk f)) = peekMutApply z kk f c from rfl,
          (peekMutApply_spec_some f hfv2).1, findVal_setValInPlace_ne _ havs, hfv] at hres
        exact (Option.some_inj.mp hres).symm
    | evict =>
      rw [show (step u z c Op.evict) = evictByEpoch u z c.watermark_epoch c from rfl,
        evictByEpoch_entries] at hres
      have := findVal_some_of_sublist (List.dropWhile_sublist _) hnd hres
      rw [hfv] at this
      exact (Option.some_inj.mp this).symm
    | evictExceptCurEpoch =>
      rw [show (step u z c Op.evictExceptCurEpoch) =
          evictByEpoch u z (min c.watermark_epoch c.inner.cur_epoch) c from rfl,
        evictByEpoch_entries] at hres
      have := findVal_some_of_sublist (List.dropWhile_sublist _) hnd hres
      rw [hfv] at this
      exact (Option.some_inj.mp this).symm
    | clear =>
      rw [show (step u z c Op.clear) = ManagedLruCache.clear c from rfl] at hres
      exact Option.noConfusion hres
    | updateEpoch e =>
      rw [show (step u z c (Op.updateEpoch e)).inner.entries = c.inner.entries from rfl,
        hfv] at hres
      exact (Option.some_inj.mp hres).symm
    | setWatermark ww =>
      rw [show (step u z c (Op.setWatermark ww)).inner.entries = c.inner.entries from rfl,
        hfv] at hres
      exact (Option.some_inj.mp hres).symm

theorem run_findVal_none {c : ManagedLruCache K V} {ops : List (Op K V)} {k : K}
    (hfv : findVal k c.inner.entries = none)
    (hav : ∀ op ∈ ops, avoidsKey k op) :
    findVal k (run u z c ops).inner.entries = none := by
  induction ops generalizing c with
  | nil => exact hfv
  | cons op rest ih =>
    exact ih (step_findVal_none hfv (hav op (List.mem_cons_self _ _)))
      (fun o ho => hav o (List.mem_cons_of_mem _ ho))

theorem run_findVal_some {c : ManagedLruCache K V} {ops : List (Op K V)} {k : K} {v : V}
    (hnd : (keysOf c.inner.entries).Nodup)
    (hfv : findVal k c.inner.entries = some v)
    (hav : ∀ op ∈ ops, avoidsKey k op)
    (hcon : (findVal k (run u z c ops).inner.entries).isSome = true) :
    findVal k (run u z c ops).inner.entries = some v := by
  induction ops generalizing c with
  | nil => exact hfv
  | cons op rest ih =>
    have hnd' := step_nodup (u := u) (z := z) op hnd
    rcases step_findVal_some (u := u) (z := z) hnd hfv
        (hav op (List.mem_cons_self _ _)) with h | h
    · exact ih hnd' h (fun o ho => hav o (List.mem_cons_of_mem _ ho)) hcon
    · exfalso
      have := run_findVal_none (u := u) (z := z) h
        (fun o ho => hav o (List.mem_cons_of_mem _ ho))
      rw [show (run u z c (op :: rest)) = run u z (step u z c op) rest from rfl,
        this] at hcon
      exact Bool.noConfusion hcon

theorem reportMemoryUsage_of_small {c : ManagedLruCache K V}
    (h : Nat.dist c.kv_heap_size c.last_reported_size_bytes ≤ reportThresholdBytes) :
    reportMemoryUsage c = (c, false) := by
  unfold reportMemoryUsage
  rw [if_neg (by omega)]

theorem applyChange_of_small {c : ManagedLruCache K V} {d : Bool × Nat}
    (h : Nat.dist (if d.1 then satAdd c.kv_heap_size d.2 else c.kv_heap_size - d.2)
      c.last_reported_size_bytes ≤ reportThresholdBytes) :
    applyChange c d = { c with kv_heap_size :=
      (if d.1 then satAdd c.kv_heap_size d.2 else c.kv_heap_size - d.2) } := by
  by_cases hd : d.1
  · simp only [applyChange, if_pos hd]
    unfold ManagedLruCache.kvHeapSizeInc
    rw [reportMemoryUsage_of_small (by simpa [hd] using h)]
  · simp only [applyChange, if_neg hd]
    unfold ManagedLruCache.kvHeapSizeDec
    rw [reportMemoryUsage_of_small (by simpa [hd] using h)]

theorem applyChanges_gauge {ds : List (Bool × Nat)} :
    ∀ {c : ManagedLruCache K V}, smallChanges c ds →
      (applyChanges c ds).memory_usage_metrics = c.memory_usage_metrics ∧
        (applyChanges c ds).last_reported_size_bytes = c.last_reported_size_bytes := by
  induction ds with
  | nil => exact fun _ => ⟨rfl, rfl⟩
  | cons d rest ih =>
    intro c h
    obtain ⟨h1, h2⟩ := h
    obtain ⟨hg, hl⟩ := ih h2
    rw [show applyChanges c (d :: rest) = applyChanges (applyChange c d) rest from rfl,
      hg, hl, applyChange_of_small h1]
    exact ⟨rfl, rfl⟩

end CacheLemmas

section Claims

open ManagedLruCache

/-- C1: failing input for the claim that `clear()` zeroes the tracked
running size.  `fn clear` only calls `self.inner.clear()` and never
touches `kv_heap_size`: starting from a fresh cache, `put(1, 1)` (key
size 1, value size 1, so `kv_heap_size = 2`) followed by `clear()`
leaves every read empty — `len() = 0`, `is_empty()`, `get`/`peek` of any
key return `None` — but the tracked running size stays `2`, not the
required `0`. -/
theorem claim_C1_clear_does_not_zero_heap_size :
    ManagedLruCache.len (ManagedLruCache.clear
        (ManagedLruCache.put (fun n : Nat => n) (fun n : Nat => n) 1 1
          (ManagedLruCache.newUnbounded 0)).2) = 0 ∧
      ManagedLruCache.isEmpty (ManagedLruCache.clear
        (ManagedLruCache.put (fun n : Nat => n) (fun n : Nat => n) 1 1
          (ManagedLruCache.newUnbounded 0)).2) = true ∧
      ManagedLruCache.peek 1 (ManagedLruCache.clear
        (ManagedLruCache.put (fun n : Nat => n) (fun n : Nat => n) 1 1
          (ManagedLruCache.newUnbounded 0)).2) = none ∧
      (ManagedLruCache.get 1 (ManagedLruCache.clear
        (ManagedLruCache.put (fun n : Nat => n) (fun n : Nat => n) 1 1
          (ManagedLruCache.newUnbounded 0)).2)).1 = none ∧
      (ManagedLruCache.clear
        (ManagedLruCache.put (fun n : Nat => n) (fun n : Nat => n) 1 1
          (ManagedLruCache.newUnbounded 0)).2).kv_heap_size = 2 := by
  decide

/-- C2 counterexample: the claim quantifies over sequences that include
`clear`, but `clear()` does not reset `kv_heap_size`: after
`put(1, 1)` (total size 2) followed by `clear()`, the tracked running
size is `2` while the exact sum of estimated sizes over the (zero)
resident entries is `0`. -/
theorem claim_C2_counterexample :
    (run (fun n : Nat => n) (fun n : Nat => n)
        (ManagedLruCache.newUnbounded 0) [Op.put 1 1, Op.clear]).kv_heap_size = 2 ∧
      sumSize (fun n : Nat => n) (fun n : Nat => n)
        (run (fun n : Nat => n) (fun n : Nat => n)
          (ManagedLruCache.newUnbounded 0) [Op.put 1 1, Op.clear]) = 0 := by
  decide

/-- C2 (amended): for every sequence of public operations NOT containing
`clear` — `put`, `push`, `get`, `peek`, guarded mutation via
`get_mut`/`peek_mut`, `evict`, `evict_except_cur_epoch`, epoch and
watermark updates — starting from a freshly constructed cache, and
provided each increment keeps the running total within `usize` range (so
the saturating arithmetic is exact), `kv_heap_size` equals the exact sum
of `estimated_size(key) + estimated_size(value)` over all resident
entries after each operation completes. -/
theorem claim_C2_size_invariant {K V : Type} [DecidableEq K]
    (szK : K → Nat) (szV : V → Nat) (w : Nat) (ops : List (Op K V))
    (hok : stepsOk szK szV (ManagedLruCache.newUnbounded w) ops)
    (hnc : Op.clear ∉ ops) :
    (run szK szV (ManagedLruCache.newUnbounded w) ops).kv_heap_size =
      sumSize szK szV (run szK szV (ManagedLruCache.newUnbounded w) ops) :=
  (run_WF (WF_newUnbounded w) hok hnc).2

/-- C2 witness: a concrete clear-free sequence satisfying the side
conditions, on which the invariant holds. -/
theorem claim_C2_size_invariant_witness :
    (stepsOk (fun n : Nat => n) (fun n : Nat => n)
        (ManagedLruCache.newUnbounded 0) [Op.put 1 1, Op.updateEpoch 3, Op.evict] ∧
      Op.clear ∉ ([Op.put 1 1, Op.updateEpoch 3, Op.evict] : List (Op Nat Nat))) ∧
      (run (fun n : Nat => n) (fun n : Nat => n) (ManagedLruCache.newUnbounded 0)
          [Op.put 1 1, Op.updateEpoch 3, Op.evict]).kv_heap_size =
        sumSize (fun n : Nat => n) (fun n : Nat => n)
          (run (fun n : Nat => n) (fun n : Nat => n) (ManagedLruCache.newUnbounded 0)
            [Op.put 1 1, Op.updateEpoch 3, Op.evict]) := by
  have h1 : opOk (fun n : Nat => n) (fun n : Nat => n)
      (ManagedLruCache.newUnbounded 0 : ManagedLruCache Nat Nat) (Op.put 1 1) := by
    show (0 + (1 + 1) : Nat) ≤ USIZE_MAX
    decide
  have hok : stepsOk (fun n : Nat => n) (fun n : Nat => n)
      (ManagedLruCache.newUnbounded 0) [Op.put 1 1, Op.updateEpoch 3, Op.evict] :=
    ⟨h1, trivial, trivial, trivial⟩
  have hnc : Op.clear ∉ ([Op.put 1 1, Op.updateEpoch 3, Op.evict] : List (Op Nat Nat)) := by
    simp
  exact ⟨⟨hok, hnc⟩, claim_C2_size_invariant _ _ 0 _ hok hnc⟩

/-- C3 counterexample: `pop_lru_by_epoch` only pops entries with stamped
epoch STRICTLY below the threshold (the source's own comments: "the
entry with epoch less than water should be evicted"), so with watermark
`5` loaded during `evict()` and an entry stamped exactly `5`
(`update_epoch(5)` then `put(1, 1)`), the entry survives eviction even
though its stamped epoch is `≤` the watermark and is not `>` it. -/
theorem claim_C3_counterexample :
    (run (fun n : Nat => n) (fun n : Nat => n)
        (ManagedLruCache.newUnbounded 5) [Op.updateEpoch 5, Op.put 1 1]).watermark_epoch = 5 ∧
      (ManagedLruCache.evict (fun n : Nat => n) (fun n : Nat => n)
        (run (fun n : Nat => n) (fun n : Nat => n)
          (ManagedLruCache.newUnbounded 5) [Op.updateEpoch 5, Op.put 1 1])).inner.entries =
        [(1, 1, 5)] ∧
      ¬ (∀ x ∈ (ManagedLruCache.evict (fun n : Nat => n) (fun n : Nat => n)
          (run (fun n : Nat => n) (fun n : Nat => n)
            (ManagedLruCache.newUnbounded 5) [Op.updateEpoch 5, Op.put 1 1])).inner.entries,
        5 < x.2.2) := by
  decide

/-- C3 (amended): assume the recency order is epoch-sorted (stamped
epochs non-decreasing from the LRU end — the invariant under monotone
`update_epoch` usage, which the spec's own justification of the
stop-at-first-survivor scan presupposes).  After `update_epoch(e)`
followed by `evict()`, with `w` the watermark value loaded during the
call: the surviving entries are exactly those with `stamped_epoch ≥ w`
in their original order, every resident entry has `stamped_epoch ≥ w`
(not `> w`), and every pre-call entry with `stamped_epoch < w` (not
`≤ w`) has been removed; eviction proceeds from the LRU end and stops at
the first entry whose stamped epoch reaches the watermark. -/
theorem claim_C3_epoch_eviction {K V : Type} [DecidableEq K]
    (szK : K → Nat) (szV : V → Nat) (e : Nat) (c : ManagedLruCache K V)
    (hs : EpochSorted c) :
    (ManagedLruCache.evict szK szV (ManagedLruCache.updateEpoch e c)).inner.entries =
        c.inner.entries.filter (fun x => decide (c.watermark_epoch ≤ x.2.2)) ∧
      (∀ x ∈ (ManagedLruCache.evict szK szV
          (ManagedLruCache.updateEpoch e c)).inner.entries,
        c.watermark_epoch ≤ x.2.2) ∧
      (∀ x ∈ c.inner.entries, x.2.2 < c.watermark_epoch →
        x ∉ (ManagedLruCache.evict szK szV
          (ManagedLruCache.updateEpoch e c)).inner.entries) := by
  have hent : (ManagedLruCache.evict szK szV
      (ManagedLruCache.updateEpoch e c)).inner.entries =
      c.inner.entries.filter (fun x => decide (c.watermark_epoch ≤ x.2.2)) := by
    rw [show ManagedLruCache.evict szK szV (ManagedLruCache.updateEpoch e c) =
      evictByEpoch szK szV c.watermark_epoch (ManagedLruCache.updateEpoch e c) from rfl,
      evictByEpoch_entries,
      show (ManagedLruCache.updateEpoch e c).inner.entries = c.inner.entries from rfl]
    exact dropWhile_eq_filter_of_sorted hs
  refine ⟨hent, ?_, ?_⟩
  · intro x hx
    rw [hent] at hx
    simpa using (List.mem_filter.mp hx).2
  · intro x _ hlt hmem
    rw [hent] at hmem
    have := (List.mem_filter.mp hmem).2
    simp at this
    omega

/-- C3 witness: a concrete epoch-sorted cache (entries stamped 3 and 7,
watermark 5) on which the amended eviction characterization holds. -/
theorem claim_C3_epoch_eviction_witness :
    EpochSorted (run (fun n : Nat => n) (fun n : Nat => n)
        (ManagedLruCache.newUnbounded 5)
        [Op.updateEpoch 3, Op.put 1 1, Op.updateEpoch 7, Op.put 2 2]) ∧
      (ManagedLruCache.evict (fun n : Nat => n) (fun n : Nat => n)
          (ManagedLruCache.updateEpoch 9 (run (fun n : Nat => n) (fun n : Nat => n)
            (ManagedLruCache.newUnbounded 5)
            [Op.updateEpoch 3, Op.put 1 1, Op.updateEpoch 7, Op.put 2 2]))).inner.entries =
        (run (fun n : Nat => n) (fun n : Nat => n)
            (ManagedLruCache.newUnbounded 5)
            [Op.updateEpoch 3, Op.put 1 1, Op.updateEpoch 7, Op.put 2 2]).inner.entries.filter
          (fun x => decide ((run (fun n : Nat => n) (fun n : Nat => n)
            (ManagedLruCache.newUnbounded 5)
            [Op.updateEpoch 3, Op.put 1 1, Op.updateEpoch 7, Op.put 2 2]).watermark_epoch ≤ x.2.2)) := by
  have hs : EpochSorted (run (fun n : Nat => n) (fun n : Nat => n)
      (ManagedLruCache.newUnbounded 5)
      [Op.updateEpoch 3, Op.put 1 1, Op.updateEpoch 7, Op.put 2 2]) := by
    show List.Pairwise _ _
    decide
  exact ⟨hs, (claim_C3_epoch_eviction _ _ 9 _ hs).1⟩

/-- C4: acquiring a mutation guard via `get_mut` or `peek_mut` on a
present key, mutating the value with `f`, and releasing the guard
applies exactly `saturating_sub` of the acquisition-time cost followed by
`saturating_add` of the release-time cost to the running size; under the
size invariant and absent saturation, the invariant holds exactly
afterwards and the net change is exactly `new_cost - old_cost`, whether
the cost increased or decreased. -/
theorem claim_C4_guard_consistency {K V : Type} [DecidableEq K]
    (szK : K → Nat) (szV : V → Nat) (k : K) (f : V → V) (v : V)
    (c : ManagedLruCache K V) (hwf : WF szK szV c)
    (hfv : findVal k c.inner.entries = some v)
    (hok : c.kv_heap_size - szV v + szV (f v) ≤ USIZE_MAX) :
    ((getMutApply szV k f c).kv_heap_size =
        satAdd (c.kv_heap_size - szV v) (szV (f v)) ∧
      (getMutApply szV k f c).kv_heap_size =
        sumSize szK szV (getMutApply szV k f c) ∧
      (getMutApply szV k f c).kv_heap_size + szV v =
        c.kv_heap_size + szV (f v)) ∧
    ((peekMutApply szV k f c).kv_heap_size =
        satAdd (c.kv_heap_size - szV v) (szV (f v)) ∧
      (peekMutApply szV k f c).kv_heap_size =
        sumSize szK szV (peekMutApply szV k f c) ∧
      (peekMutApply szV k f c).kv_heap_size + szV v =
        c.kv_heap_size + szV (f v)) := by
  have hokE : (findVal k c.inner.entries).elim True
      (fun w => c.kv_heap_size - szV w + szV (f w) ≤ USIZE_MAX) := by
    rw [hfv]
    exact hok
  have hle : szK k + szV v ≤ c.kv_heap_size := by
    rw [hwf.2]
    exact contribution_le_sumEntries hfv
  refine ⟨⟨(getMutApply_spec_some f hfv).2, (WF_getMut hwf hokE).2, ?_⟩,
    ⟨(peekMutApply_spec_some f hfv).2, (WF_peekMut hwf hokE).2, ?_⟩⟩
  · rw [(getMutApply_spec_some f hfv).2, satAdd_eq hok]
    omega
  · rw [(peekMutApply_spec_some f hfv).2, satAdd_eq hok]
    omega

/-- C4 witness: value of key 1 mutated from cost 12 to cost 30 under
both guard acquisition paths. -/
theorem claim_C4_guard_consistency_witness :
    (WF (fun n : Nat => n) (fun n : Nat => n)
        (run (fun n : Nat => n) (fun n : Nat => n) (ManagedLruCache.newUnbounded 0)
          [Op.updateEpoch 2, Op.put 1 12]) ∧
      findVal 1 (run (fun n : Nat => n) (fun n : Nat => n) (ManagedLruCache.newUnbounded 0)
        [Op.updateEpoch 2, Op.put 1 12]).inner.entries = some 12) ∧
      (getMutApply (fun n : Nat => n) 1 (fun _ => 30)
        (run (fun n : Nat => n) (fun n : Nat => n) (ManagedLruCache.newUnbounded 0)
          [Op.updateEpoch 2, Op.put 1 12])).kv_heap_size + 12 =
        (run (fun n : Nat => n) (fun n : Nat => n) (ManagedLruCache.newUnbounded 0)
          [Op.updateEpoch 2, Op.put 1 12]).kv_heap_size + 30 := by
  have hwf : WF (fun n : Nat => n) (fun n : Nat => n)
      (run (fun n : Nat => n) (fun n : Nat => n) (ManagedLruCache.newUnbounded 0)
        [Op.updateEpoch 2, Op.put 1 12]) := ⟨by decide, by decide⟩
  exact ⟨⟨hwf, by decide⟩,
    (claim_C4_guard_consistency _ _ 1 (fun _ => 30) 12 _ hwf (by decide) (by decide)).1.2.2⟩

/-- C5: `evict_except_cur_epoch()` evicts with the threshold
`min(load(watermark), local_current_epoch)`, and since the eviction loop
only pops entries with stamped epoch strictly below the threshold, no
entry with `stamped_epoch ≥ local_current_epoch` is ever evicted by it —
even when the watermark has advanced past the local current epoch. -/
theorem claim_C5_evict_except_cur_epoch {K V : Type} [DecidableEq K]
    (szK : K → Nat) (szV : V → Nat) (c : ManagedLruCache K V) :
    ManagedLruCache.evictExceptCurEpoch szK szV c =
        evictByEpoch szK szV (min c.watermark_epoch c.inner.cur_epoch) c ∧
      ∀ x ∈ c.inner.entries, c.inner.cur_epoch ≤ x.2.2 →
        x ∈ (ManagedLruCache.evictExceptCurEpoch szK szV c).inner.entries := by
  refine ⟨rfl, fun x hx hcur => ?_⟩
  rw [show ManagedLruCache.evictExceptCurEpoch szK szV c =
    evictByEpoch szK szV (min c.watermark_epoch c.inner.cur_epoch) c from rfl,
    evictByEpoch_entries]
  refine mem_dropWhile_of_not hx ?_
  simp only [decide_eq_true_eq]
  omega

/-- C5 witness: local current epoch 20, watermark 25 (past the current
epoch); the entry stamped 20 survives `evict_except_cur_epoch()`. -/
theorem claim_C5_evict_except_cur_epoch_witness :
    (1, 8, 20) ∈ (ManagedLruCache.evictExceptCurEpoch (fun n : Nat => n) (fun n : Nat => n)
      (run (fun n : Nat => n) (fun n : Nat => n) (ManagedLruCache.newUnbounded 25)
        [Op.updateEpoch 20, Op.put 1 8])).inner.entries :=
  (claim_C5_evict_except_cur_epoch (fun n : Nat => n) (fun n : Nat => n)
    (run (fun n : Nat => n) (fun n : Nat => n) (ManagedLruCache.newUnbounded 25)
      [Op.updateEpoch 20, Op.put 1 8])).2 (1, 8, 20) (by decide) (by decide)

/-- C6: `report_memory_usage` pushes the gauge (recording the exact
current running size as the i64 gauge value and updating
`last_reported_size_bytes`) if and only if the absolute difference
between the running size and the last reported size strictly exceeds
4096 KiB; a difference equal to the threshold does not push and leaves
the state unchanged; consequently the reported size lags the true
running size by at most the threshold after every report, and a sequence
of accounting changes each leaving the difference at or below the
threshold never updates the external gauge. -/
theorem claim_C6_throttled_reporting {K V : Type} [DecidableEq K] (c : ManagedLruCache K V) :
    ((ManagedLruCache.reportMemoryUsage c).2 = true ↔
        reportThresholdBytes < Nat.dist c.kv_heap_size c.last_reported_size_bytes) ∧
      ((ManagedLruCache.reportMemoryUsage c).2 = true →
        (ManagedLruCache.reportMemoryUsage c).1.last_reported_size_bytes = c.kv_heap_size ∧
          (ManagedLruCache.reportMemoryUsage c).1.memory_usage_metrics =
            usizeToI64 c.kv_heap_size) ∧
      ((ManagedLruCache.reportMemoryUsage c).2 = false →
        (ManagedLruCache.reportMemoryUsage c).1 = c) ∧
      Nat.dist (ManagedLruCache.reportMemoryUsage c).1.kv_heap_size
          (ManagedLruCache.reportMemoryUsage c).1.last_reported_size_bytes ≤
        reportThresholdBytes ∧
      (∀ ds : List (Bool × Nat), smallChanges c ds →
        (applyChanges c ds).memory_usage_metrics = c.memory_usage_metrics ∧
          (applyChanges c ds).last_reported_size_bytes = c.last_reported_size_bytes) := by
  by_cases h : reportThresholdBytes < Nat.dist c.kv_heap_size c.last_reported_size_bytes
  · have hr : ManagedLruCache.reportMemoryUsage c =
        ({ c with memory_usage_metrics := usizeToI64 c.kv_heap_size,
                  last_reported_size_bytes := c.kv_heap_size }, true) := by
      unfold ManagedLruCache.reportMemoryUsage
      rw [if_pos h]
    rw [hr]
    exact ⟨by simp [h], fun _ => ⟨rfl, rfl⟩, fun hfalse => Bool.noConfusion hfalse,
      by simp [Nat.dist_self], fun ds hds => applyChanges_gauge hds⟩
  · have hr : ManagedLruCache.reportMemoryUsage c = (c, false) :=
      reportMemoryUsage_of_small (by omega)
    rw [hr]
    exact ⟨by simp [h], fun htrue => Bool.noConfusion htrue, fun _ => rfl,
      (by omega : Nat.dist c.kv_heap_size c.last_reported_size_bytes ≤ reportThresholdBytes),
      fun ds hds => applyChanges_gauge hds⟩

/-- C6 witness: a state whose running size differs from the last report
by more than the threshold does push and records the exact size; two
small changes (an increment by 3 and a decrement by 1, both leaving the
difference below the threshold) never touch the gauge. -/
theorem claim_C6_throttled_reporting_witness :
    ((ManagedLruCache.reportMemoryUsage
        ({ (ManagedLruCache.newUnbounded 0 : ManagedLruCache Nat Nat) with
          kv_heap_size := 5000000 })).2 = true ∧
      (ManagedLruCache.reportMemoryUsage
        ({ (ManagedLruCache.newUnbounded 0 : ManagedLruCache Nat Nat) with
          kv_heap_size := 5000000 })).1.last_reported_size_bytes = 5000000) ∧
      (smallChanges (ManagedLruCache.newUnbounded 0 : ManagedLruCache Nat Nat)
          [(true, 3), (false, 1)] ∧
        (applyChanges (ManagedLruCache.newUnbounded 0 : ManagedLruCache Nat Nat)
          [(true, 3), (false, 1)]).memory_usage_metrics = 0) := by
  have hA := claim_C6_throttled_reporting
    ({ (ManagedLruCache.newUnbounded 0 : ManagedLruCache Nat Nat) with
      kv_heap_size := 5000000 })
  have hpush := hA.1.mpr (by decide)
  have hsmall : smallChanges (ManagedLruCache.newUnbounded 0 : ManagedLruCache Nat Nat)
      [(true, 3), (false, 1)] := ⟨by decide, by decide, trivial⟩
  have hB := claim_C6_throttled_reporting
    (ManagedLruCache.newUnbounded 0 : ManagedLruCache Nat Nat)
  exact ⟨⟨hpush, (hA.2.1 hpush).1⟩, ⟨hsmall, (hB.2.2.2.2 _ hsmall).1⟩⟩

/-- C7: dropping a cache (`impl Drop for ManagedLruCache`) sets its
memory-usage gauge to exactly 0, for every state of the cache at
destruction time, including states whose tracked or last-reported size
is nonzero. -/
theorem claim_C7_drop_resets_gauge {K V : Type} (c : ManagedLruCache K V) :
    (ManagedLruCache.dropCache c).memory_usage_metrics = 0 := rfl

/-- C8: all running-size arithmetic (`kv_heap_size_inc`,
`kv_heap_size_dec`, and the guard's release reconciliation) is total
saturating arithmetic: for every input the results stay within `usize`
range, an increment is addition capped at `usize::MAX` and never
decreases the total, and a decrement is truncated subtraction that never
wraps below zero — no input can overflow, underflow-wrap, or panic. -/
theorem claim_C8_saturating_accounting {K V : Type} [DecidableEq K] (c : ManagedLruCache K V)
    (s orig newSize : Nat) (hkv : c.kv_heap_size ≤ USIZE_MAX) :
    ((ManagedLruCache.kvHeapSizeInc s c).kv_heap_size =
        min (c.kv_heap_size + s) USIZE_MAX ∧
      (ManagedLruCache.kvHeapSizeInc s c).kv_heap_size ≤ USIZE_MAX ∧
      c.kv_heap_size ≤ (ManagedLruCache.kvHeapSizeInc s c).kv_heap_size) ∧
    ((ManagedLruCache.kvHeapSizeDec s c).kv_heap_size = c.kv_heap_size - s ∧
      (ManagedLruCache.kvHeapSizeDec s c).kv_heap_size ≤ c.kv_heap_size) ∧
    ((ManagedLruCache.guardRelease orig newSize c).kv_heap_size =
        min (c.kv_heap_size - orig + newSize) USIZE_MAX ∧
      (ManagedLruCache.guardRelease orig newSize c).kv_heap_size ≤ USIZE_MAX) := by
  have h1 : (ManagedLruCache.kvHeapSizeInc s c).kv_heap_size =
      min (c.kv_heap_size + s) USIZE_MAX := kvHeapSizeInc_kv s c
  have h2 : (ManagedLruCache.kvHeapSizeDec s c).kv_heap_size =
      c.kv_heap_size - s := kvHeapSizeDec_kv s c
  have h3 : (ManagedLruCache.guardRelease orig newSize c).kv_heap_size =
      min (c.kv_heap_size - orig + newSize) USIZE_MAX := guardRelease_kv orig newSize c
  refine ⟨⟨h1, ?_, ?_⟩, ⟨h2, ?_⟩, ⟨h3, ?_⟩⟩
  · rw [h1]
    exact Nat.min_le_right _ _
  · rw [h1]
    exact le_min (Nat.le_add_right _ _) hkv
  · rw [h2]
    exact Nat.sub_le _ _
  · rw [h3]
    exact Nat.min_le_right _ _

/-- C8 witness: the saturating-accounting facts at a concrete state. -/
theorem claim_C8_saturating_accounting_witness :
    (ManagedLruCache.newUnbounded 0 : ManagedLruCache Nat Nat).kv_heap_size ≤ USIZE_MAX ∧
      ((ManagedLruCache.kvHeapSizeInc 5
          (ManagedLruCache.newUnbounded 0 : ManagedLruCache Nat Nat)).kv_heap_size =
        min (0 + 5) USIZE_MAX ∧
      (ManagedLruCache.kvHeapSizeInc 5
          (ManagedLruCache.newUnbounded 0 : ManagedLruCache Nat Nat)).kv_heap_size ≤ USIZE_MAX ∧
      (0 : Nat) ≤ (ManagedLruCache.kvHeapSizeInc 5
          (ManagedLruCache.newUnbounded 0 : ManagedLruCache Nat Nat)).kv_heap_size) ∧
      ((ManagedLruCache.kvHeapSizeDec 3
          (ManagedLruCache.newUnbounded 0 : ManagedLruCache Nat Nat)).kv_heap_size = 0 - 3 ∧
      (ManagedLruCache.kvHeapSizeDec 3
          (ManagedLruCache.newUnbounded 0 : ManagedLruCache Nat Nat)).kv_heap_size ≤ 0) ∧
      ((ManagedLruCache.guardRelease 3 7
          (ManagedLruCache.newUnbounded 0 : ManagedLruCache Nat Nat)).kv_heap_size =
        min (0 - 3 + 7) USIZE_MAX ∧
      (ManagedLruCache.guardRelease 3 7
          (ManagedLruCache.newUnbounded 0 : ManagedLruCache Nat Nat)).kv_heap_size ≤ USIZE_MAX) :=
  ⟨by decide,
    claim_C8_saturating_accounting
      (ManagedLruCache.newUnbounded 0 : ManagedLruCache Nat Nat) 5 3 7 (by decide)⟩

/-- C9: for every starting cache with unique keys, after `put(k, v)`
followed by any operation sequence that never re-`put`s/`push`es `k`,
never mutates `k` through a guard, and leaves `k` resident at the end
(no eviction, capacity pop, or `clear` removed it), `get(k)` returns
`Some v`, the most recently put value for `k`. -/
theorem claim_C9_round_trip {K V : Type} [DecidableEq K]
    (szK : K → Nat) (szV : V → Nat) (c : ManagedLruCache K V)
    (k : K) (v : V) (ops : List (Op K V))
    (hnd : (keysOf c.inner.entries).Nodup)
    (hav : ∀ op ∈ ops, avoidsKey k op)
    (hcon : ManagedLruCache.contains k
      (run szK szV (ManagedLruCache.put szK szV k v c).2 ops) = true) :
    (ManagedLruCache.get k
      (run szK szV (ManagedLruCache.put szK szV k v c).2 ops)).1 = some v := by
  have hput : findVal k (ManagedLruCache.put szK szV k v c).2.inner.entries = some v := by
    rw [put_entries,
      findVal_append_of_none (findVal_eq_none_iff.mpr (not_mem_keysOf_removeKey k _))]
    simp [findVal]
  have hnd' : (keysOf (ManagedLruCache.put szK szV k v c).2.inner.entries).Nodup := by
    rw [put_entries]
    exact nodup_keysOf_removeKey_concat hnd
  rw [contains_eq] at hcon
  rw [get_fst]
  exact run_findVal_some hnd' hput hav hcon

/-- C9 witness: `put(1, 42)` survives a later `put(2, 7)`, a promoting
`get(1)` and an eviction that removes nothing, and `get(1)` returns
`Some 42`. -/
theorem claim_C9_round_trip_witness :
    (∀ op ∈ ([Op.put 2 7, Op.get 1, Op.evict] : List (Op Nat Nat)), avoidsKey 1 op) ∧
      (ManagedLruCache.get 1 (run (fun n : Nat => n) (fun n : Nat => n)
        (ManagedLruCache.put (fun n : Nat => n) (fun n : Nat => n) 1 42
          (ManagedLruCache.newUnbounded 0)).2
        [Op.put 2 7, Op.get 1, Op.evict])).1 = some 42 := by
  have hav : ∀ op ∈ ([Op.put 2 7, Op.get 1, Op.evict] : List (Op Nat Nat)), avoidsKey 1 op := by
    intro op hop
    simp only [List.mem_cons, List.not_mem_nil, or_false] at hop
    rcases hop with rfl | rfl | rfl
    · show (2 : Nat) ≠ 1
      decide
    · trivial
    · trivial
  exact ⟨hav, claim_C9_round_trip _ _ _ 1 42 _ (by decide) hav (by decide)⟩

/-- C10: when `put(k, v)` replaces an existing entry, the decrement is
computed from the newly supplied key's estimated size plus the old
value's estimated size, so (with a consistent key size function and no
saturation) the key contribution cancels and the net change to the
running size is exactly `estimated_size(v) - estimated_size(old)`. -/
theorem claim_C10_put_replacement_delta {K V : Type} [DecidableEq K]
    (szK : K → Nat) (szV : V → Nat) (k : K) (v ov : V) (c : ManagedLruCache K V)
    (hfv : findVal k c.inner.entries = some ov)
    (hacc : szK k + szV ov ≤ c.kv_heap_size)
    (hok : c.kv_heap_size + (szK k + szV v) ≤ USIZE_MAX) :
    (ManagedLruCache.put szK szV k v c).1 = some ov ∧
      (ManagedLruCache.put szK szV k v c).2.kv_heap_size + szV ov =
        c.kv_heap_size + szV v := by
  refine ⟨by rw [put_fst, hfv], ?_⟩
  rw [put_kv_of_some v hfv, satAdd_eq hok]
  omega

/-- C10 witness: replacing the value of key 1 (old cost 10, new cost 20)
changes the running size by exactly 10, the key contribution
cancelling. -/
theorem claim_C10_put_replacement_delta_witness :
    (ManagedLruCache.put (fun n : Nat => n) (fun n : Nat => n) 1 20
        (ManagedLruCache.put (fun n : Nat => n) (fun n : Nat => n) 1 10
          (ManagedLruCache.newUnbounded 0)).2).1 = some 10 ∧
      (ManagedLruCache.put (fun n : Nat => n) (fun n : Nat => n) 1 20
        (ManagedLruCache.put (fun n : Nat => n) (fun n : Nat => n) 1 10
          (ManagedLruCache.newUnbounded 0)).2).2.kv_heap_size + 10 =
        (ManagedLruCache.put (fun n : Nat => n) (fun n : Nat => n) 1 10
          (ManagedLruCache.newUnbounded 0)).2.kv_heap_size + 20 :=
  claim_C10_put_replacement_delta (fun n : Nat => n) (fun n : Nat => n) 1 20 10
    (ManagedLruCache.put (fun n : Nat => n) (fun n : Nat => n) 1 10
      (ManagedLruCache.newUnbounded 0)).2 (by decide) (by decide) (by decide)

end Claims

end ManagedLru
